import Mathlib

/-!
Verification development for the yaRust bank-statement tooling
(`bank_account_parser`, `comparer`): Lean embeddings of the format
engines' data model and algorithms, with theorems checking the
natural-language specification against them.

Conventions of the embedding:
* Rust `Decimal` is modelled as `Rat` (rust_decimal equality is
  numeric, which `Rat` equality matches).
* `chrono::NaiveDate` is modelled as a `year/month/day` structure with
  the calendar-validity checks that `NaiveDate` parsing performs;
  `NaiveDate::default()` is 1970-01-01.
* Rust strings sliced by byte index are modelled as `List Char`
  (the relevant inputs are ASCII, where the two coincide).
* A Rust panic (out-of-range slice, `HashMap` index on a missing key)
  is modelled by returning `none` from an `Option`-valued function.
-/

/-- `DebitOrCredit` from `common.rs`. -/
inductive DebitOrCredit where
  | debit
  | credit
  | reverseDebit
  | reverseCredit
deriving DecidableEq, Repr

instance : Inhabited DebitOrCredit := ⟨DebitOrCredit.debit⟩

/-- `FormatError` from `common.rs` (the detail strings are carried verbatim
where a theorem needs them, and abbreviated otherwise). -/
inductive FormatErr where
  | dataFormatError (msg : String)
  | unknownValueFormat (msg : String)
  | unknownError (msg : String)
  | readWriteError (msg : String)
  | unsupportedTag (msg : String)
deriving DecidableEq, Repr

deriving instance DecidableEq for Except

/-- Model of `chrono::NaiveDate`: a calendar date.  Only construction via
the (validity-checking) parse functions below, equality and the date-only
sort key are used by the code under verification. -/
structure Date where
  year : Int
  month : Nat
  day : Nat
deriving DecidableEq, Repr

/-- `NaiveDate::default()` is the Unix epoch. -/
instance : Inhabited Date := ⟨⟨1970, 1, 1⟩⟩

def Date.default : Date := ⟨1970, 1, 1⟩

def isLeapYear (y : Int) : Bool :=
  y % 4 == 0 && (y % 100 != 0 || y % 400 == 0)

def daysInMonth (y : Int) (m : Nat) : Nat :=
  if m = 2 then (if isLeapYear y then 29 else 28)
  else if m = 4 ∨ m = 6 ∨ m = 9 ∨ m = 11 then 30
  else 31

/-- Calendar validity check used by `NaiveDate::from_ymd_opt` /
`parse_from_str`. -/
def validDate (y : Int) (m d : Nat) : Bool :=
  1 ≤ m && m ≤ 12 && 1 ≤ d && d ≤ daysInMonth y m

/-- Date ordering (chrono's `Ord` on `NaiveDate`), used as the holder's
sort key. -/
def Date.le (a b : Date) : Bool :=
  a.year < b.year ||
    (a.year == b.year &&
      (a.month < b.month || (a.month == b.month && a.day ≤ b.day)))

def digitVal (c : Char) : Option Nat :=
  if c.isDigit then some (c.toNat - '0'.toNat) else none

/-- Parse an all-digit string into a number; `none` if any character is
not an ASCII digit or the string is empty. -/
def parseDigits (cs : List Char) : Option Nat :=
  match cs with
  | [] => none
  | _ =>
    cs.foldl
      (fun acc c =>
        match acc, digitVal c with
        | some n, some d => some (n * 10 + d)
        | _, _ => none)
      (some 0)

/-- chrono's `%y` two-digit-year mapping: 00–68 ↦ 20xx, 69–99 ↦ 19xx. -/
def expandYY (yy : Nat) : Int :=
  if yy ≤ 68 then (2000 + yy : Int) else (1900 + yy : Int)

/-- `NaiveDate::parse_from_str(s, "%y%m%d")` on an exactly-6-character
string. -/
def parseDateYYMMDD (cs : List Char) : Option Date :=
  match cs with
  | [y1, y2, m1, m2, d1, d2] =>
    match parseDigits [y1, y2], parseDigits [m1, m2], parseDigits [d1, d2] with
    | some yy, some m, some d =>
      let y := expandYY yy
      if validDate y m d then some ⟨y, m, d⟩ else none
    | _, _, _ => none
  | _ => none

/-- `NaiveDate::parse_from_str(s, "%Y%m%d")` on an exactly-8-character
string (as built by `format!("{yyyy}{mmdd}")` in `parse_61`). -/
def parseDateYYYYMMDD (cs : List Char) : Option Date :=
  match cs with
  | [y1, y2, y3, y4, m1, m2, d1, d2] =>
    match parseDigits [y1, y2, y3, y4], parseDigits [m1, m2],
        parseDigits [d1, d2] with
    | some y, some m, some d =>
      if validDate (y : Int) m d then some ⟨(y : Int), m, d⟩ else none
    | _, _, _ => none
  | _ => none

/-- `NaiveDate::parse_from_str(s, "%Y-%m-%d")` on `YYYY-MM-DD`. -/
def parseDateISO (cs : List Char) : Option Date :=
  match cs with
  | [y1, y2, y3, y4, h1, m1, m2, h2, d1, d2] =>
    if h1 = '-' ∧ h2 = '-' then
      match parseDigits [y1, y2, y3, y4], parseDigits [m1, m2],
          parseDigits [d1, d2] with
      | some y, some m, some d =>
        if validDate (y : Int) m d then some ⟨(y : Int), m, d⟩ else none
      | _, _, _ => none
    else none
  | _ => none

/-- `NaiveDate::parse_from_str(s, "%d.%m.%Y")` (the CSV date format). -/
def parseDateDMY (cs : List Char) : Option Date :=
  match cs with
  | [d1, d2, h1, m1, m2, h2, y1, y2, y3, y4] =>
    if h1 = '.' ∧ h2 = '.' then
      match parseDigits [d1, d2], parseDigits [m1, m2],
          parseDigits [y1, y2, y3, y4] with
      | some d, some m, some y =>
        if validDate (y : Int) m d then some ⟨(y : Int), m, d⟩ else none
      | _, _, _ => none
    else none
  | _ => none

/-- Model of `rust_decimal::Decimal::from_str` restricted to the shapes
the engines produce (`digits` or `digits.digits`, optional leading `-`);
the numeric value is kept as a `Rat`, matching `Decimal`'s value
equality. -/
def parseDecimal (cs : List Char) : Option Rat :=
  let (neg, body) :=
    match cs with
    | '-' :: rest => (true, rest)
    | _ => (false, cs)
  let intPart := body.takeWhile Char.isDigit
  let rest := body.dropWhile Char.isDigit
  if intPart.isEmpty then none
  else
    match rest with
    | [] =>
      (parseDigits intPart).map fun n => if neg then -(n : Rat) else (n : Rat)
    | '.' :: frac =>
      if frac.isEmpty ∨ ¬ frac.all Char.isDigit then none
      else
        match parseDigits intPart, parseDigits frac with
        | some n, some f =>
          let v : Rat := (n : Rat) + (f : Rat) / ((10 : Rat) ^ frac.length)
          some (if neg then -v else v)
        | _, _ => none
    | _ => none

/-- Rust `str::trim` (whitespace stripped from both ends), modelled on the
character list so that idempotence is provable. -/
def rustTrimList (cs : List Char) : List Char :=
  ((cs.dropWhile Char.isWhitespace).reverse.dropWhile Char.isWhitespace).reverse

def rustTrim (s : String) : String :=
  ⟨rustTrimList s.data⟩

/-- `DebitOrCredit::from_str` from `common.rs`: note the crossed mapping
of the reversal codes (`"RD" → ReverseCredit`, `"RC" → ReverseDebit`). -/
def debitOrCreditFromStr (s : List Char) : Except FormatErr DebitOrCredit :=
  if s = ['C'] then .ok .credit
  else if s = ['D'] then .ok .debit
  else if s = ['R', 'D'] then .ok .reverseCredit
  else if s = ['R', 'C'] then .ok .reverseDebit
  else .error (.unknownValueFormat ("Неизвестное обозначение для операции mt940"))

/-- `AvailableBalance` from `mt940_format.rs`. -/
structure AvailableBalance where
  debit_credit_indicator : DebitOrCredit := .debit
  date : Date := Date.default
  iso_currency_code : String := ""
  amount : Rat := 0
deriving DecidableEq, Repr

instance : Inhabited AvailableBalance := ⟨{}⟩

/-- `AvailableBalance::merge`: each field of `other` overwrites `self`
only when it is non-default. -/
def AvailableBalance.merge (self other : AvailableBalance) : AvailableBalance :=
  { debit_credit_indicator :=
      if other.debit_credit_indicator ≠ .debit then other.debit_credit_indicator
      else self.debit_credit_indicator
    date := if other.date ≠ Date.default then other.date else self.date
    iso_currency_code :=
      if other.iso_currency_code ≠ "" then other.iso_currency_code
      else self.iso_currency_code
    amount := if other.amount ≠ 0 then other.amount else self.amount }

/-- `Balance` from `mt940_format.rs`. -/
structure Balance where
  is_intermediate : Bool := false
  balance : AvailableBalance := {}
deriving DecidableEq, Repr

instance : Inhabited Balance := ⟨{}⟩

/-- `Balance::merge`. -/
def Balance.merge (self other : Balance) : Balance :=
  { is_intermediate :=
      if other.is_intermediate then true else self.is_intermediate
    balance := self.balance.merge other.balance }

/-- C5: Balance merge is idempotent and has the entirely-default value as
a right identity, and the same holds for the `AvailableBalance` merge
over its four fields. -/
theorem balance_merge_idempotent_default_identity
    (b : Balance) (ab : AvailableBalance) :
    Balance.merge b b = b ∧
    Balance.merge b {} = b ∧
    AvailableBalance.merge ab ab = ab ∧
    AvailableBalance.merge ab {} = ab := by
  refine ⟨?_, ?_, ?_, ?_⟩ <;>
    · simp only [Balance.merge, AvailableBalance.merge]
      cases b; cases ab; simp_all

/-- `Transaction` from `transactions_holder.rs`; equality is structural
over all four fields (the derived `PartialEq`). -/
structure Transaction where
  amount : Rat := 0
  currency : String := ""
  date : Date := Date.default
  operation_type : DebitOrCredit := .debit
deriving DecidableEq, Repr

/-- Insert a transaction before the first element with a later-or-equal
date is wrong for stability; it is inserted before the first element
whose date it is `≤`, i.e. after every earlier element with the same
date — the stable placement. -/
def orderedInsertByDate (t : Transaction) : List Transaction → List Transaction
  | [] => [t]
  | b :: l =>
    if Date.le t.date b.date then t :: b :: l else b :: orderedInsertByDate t l

/-- `TransactionHolder::new`: collect the transactions and stably sort
them by date (`sort_by_key(|x| x.date)` is a stable sort keyed on the
date alone; a stable insertion sort realizes the same function). -/
def holderNew : List Transaction → List Transaction
  | [] => []
  | t :: l => orderedInsertByDate t (holderNew l)

/-- Outcome of the comparer's main loop (`comparer/src/main.rs`):
either the success message is printed, or the loop bails naming the
unmatched transaction of one side. -/
inductive CompareResult where
  | identical
  | onlyInFirst (t : Transaction)
  | onlyInSecond (t : Transaction)
deriving DecidableEq, Repr

/-- The comparer's lock-step loop over the two holders' iterators
(`main.rs` lines 56–72).  Note that the source's `if t1 == t2 {
continue; }` has no `else` arm: when the two transactions differ the
loop body simply ends and the next iteration begins, so both branches
proceed with the remaining lists. -/
def comparerRun : List Transaction → List Transaction → CompareResult
  | t1 :: r1, l2 =>
    match l2 with
    | t2 :: r2 => if t1 = t2 then comparerRun r1 r2 else comparerRun r1 r2
    | [] => .onlyInFirst t1
  | [], t2 :: _ => .onlyInSecond t2
  | [], [] => .identical

/-- `StatementLine` from `mt940_format.rs`. -/
structure StatementLine where
  value_date : Date := Date.default
  entry_date : Option Date := none
  ext_debit_credit_indicator : DebitOrCredit := .debit
  funds_code : Option String := none
  amount : Rat := 0
  transaction_type_ident_code : String := ""
  customer_ref : String := ""
  bank_ref : Option String := none
  supplementary_details : Option String := none
  information_to_account_owner : Option String := none
deriving DecidableEq, Repr

instance : Inhabited StatementLine := ⟨{}⟩

/-- The debit/credit token step of `parse_61` (`mt940_format.rs` lines
330–351): with at least two characters left, try the two-character
reversal codes first, otherwise consume one character through
`DebitOrCredit::from_str`. -/
def parse61DC (s : List Char) (i : Nat) :
    Except FormatErr (DebitOrCredit × Nat) :=
  if i + 2 ≤ s.length then
    let two := (s.drop i).take 2
    if two = ['R', 'D'] then .ok (.reverseCredit, i + 2)
    else if two = ['R', 'C'] then .ok (.reverseDebit, i + 2)
    else
      match debitOrCreditFromStr ((s.drop i).take 1) with
      | .ok dc => .ok (dc, i + 1)
      | .error e => .error e
  else .error (.unknownValueFormat ("в блоке 61 нет D/C"))

/-- Rust `str::split_once`: split at the first occurrence of the
pattern. -/
def rustSplitOnce (cs pat : List Char) : Option (List Char × List Char) :=
  match cs with
  | [] => if pat.isEmpty then some ([], []) else none
  | c :: rest =>
    if pat.isPrefixOf (c :: rest) then some ([], (c :: rest).drop pat.length)
    else
      match rustSplitOnce rest pat with
      | some (l, r) => some (c :: l, r)
      | none => none

/-- The tail-splitting step of `parse_61` (`mt940_format.rs` lines
409–426): derive customer reference, bank reference and supplementary
details from the text remaining after the transaction type code. -/
def splitTail (tail : List Char) :
    List Char × Option (List Char) × Option (List Char) :=
  match rustSplitOnce tail ['/', '/'] with
  | some (left, right) =>
    if 16 < right.length then (left, some (right.take 16), some (right.drop 16))
    else (left, some right, none)
  | none =>
    if 16 < tail.length then (tail.take 16, none, some (tail.drop 16))
    else (tail, none, none)

/-- Decimal-digit run of `s` starting at byte `i` (the `while` loops in
`parse_61`). -/
def digitRunLen (s : List Char) (i : Nat) : Nat :=
  ((s.drop i).takeWhile Char.isDigit).length

/-- `MT940Format::parse_61`: the left-to-right positional parse of an
MT940 statement line (field `61`). -/
def parse61 (raw : List Char) : Except FormatErr StatementLine :=
  let s := rustTrimList (raw.filter (fun c => c ≠ '\n'))
  if s.length < 6 then
    .error (.unknownValueFormat ("в блоке 61 нет value_date"))
  else
    match parseDateYYMMDD (s.take 6) with
    | none =>
      .error (.unknownValueFormat ("в блоке 61 не удалось разобрать value_date"))
    | some value_date =>
      -- optional 4-digit entry date `MMDD`, inheriting the value date's year
      let entryDigits := (s.drop 6).take 4
      let hasEntry : Bool := 6 + 4 ≤ s.length && entryDigits.all Char.isDigit
      let entry_date : Option Date :=
        if hasEntry = true then
          parseDateYYYYMMDD ((toString value_date.year).data ++ entryDigits)
        else none
      let i0 := if hasEntry = true then 6 + 4 else 6
      match parse61DC s i0 with
      | .error e => .error e
      | .ok (ext_dc, i1) =>
        -- optional 1-letter funds code, only if followed by a digit
        -- (source: `s.len() > i`, `c.is_ascii_alphabetic()`, `s.len() > i + 1`,
        -- `s[i + 1].is_ascii_digit()`)
        let hasFunds : Bool :=
          (((s.get? i1).map Char.isAlpha).getD false) &&
            (((s.get? (i1 + 1)).map Char.isDigit).getD false)
        let funds_code : Option String :=
          if hasFunds = true then (s.get? i1).map (fun c => String.mk [c]) else none
        let startAmount := if hasFunds = true then i1 + 1 else i1
        -- digits, then a mandatory ',' or '.', then mandatory fraction digits
        let i2 := startAmount + digitRunLen s startAmount
        if i2 = startAmount ∨ s.length ≤ i2 ∨
            (s.get? i2 ≠ some ',' ∧ s.get? i2 ≠ some '.') then
          .error (.unknownValueFormat ("в блоке 61 не удалось выделить amount"))
        else
          let fracStart := i2 + 1
          let i3 := fracStart + digitRunLen s fracStart
          if i3 = fracStart then
            .error (.unknownValueFormat
              ("в блоке 61 не удалось выделить дробную часть amount"))
          else
            let amountStr := (s.drop startAmount).take (i3 - startAmount)
            match parseDecimal
                (amountStr.map (fun c => if c = ',' then '.' else c)) with
            | none =>
              .error (.unknownValueFormat ("в блоке 61 не удалось разобрать amount"))
            | some amount =>
              -- transaction type: `N` + 3 characters
              if s.length < i3 + 4 ∨ (s.drop i3).take 1 ≠ ['N'] then
                .error (.unknownValueFormat ("в блоке 61 нет transaction type (NXXX)"))
              else
                let code3 := (s.drop (i3 + 1)).take 3
                let tail := s.drop (i3 + 4)
                let (customer_ref, bank_ref, supplementary_details) :=
                  splitTail tail
                .ok
                  { value_date := value_date
                    entry_date := entry_date
                    ext_debit_credit_indicator := ext_dc
                    funds_code := funds_code
                    amount := amount
                    transaction_type_ident_code := String.mk code3
                    customer_ref := String.mk customer_ref
                    bank_ref := bank_ref.map String.mk
                    supplementary_details := supplementary_details.map String.mk
                    information_to_account_owner := none }

/-- `Message` from `mt940_format.rs`. -/
structure Message where
  transaction_ref_no : String := ""
  ref_to_related_msg : Option String := none
  account_id : String := ""
  statement_no : String := ""
  sequence_no : Option String := none
  opening_balance : Balance := {}
  statement_lines : List StatementLine := []
  closing_balance : Balance := {}
  closing_available_balance : Option AvailableBalance := none
  forward_available_balance : Option AvailableBalance := none
  information_to_account_owner : Option String := none
deriving DecidableEq, Repr

instance : Inhabited Message := ⟨{}⟩

/-- `MT940Format::parse_balance`: 1-char debit/credit code, 6-digit
`YYMMDD` date, 3-letter currency, remaining decimal amount.  The `size`
argument is only a minimum-length check (as in the source, the slicing
offsets do not change with it). -/
def parseBalance (str : List Char) (size : Nat) (is_intermediate : Bool) :
    Except FormatErr Balance :=
  let s := rustTrimList str
  if s.length < size then
    .error (.unknownValueFormat ("слишком короткий баланс"))
  else
    match debitOrCreditFromStr (s.take 1) with
    | .error e => .error e
    | .ok ext_dc =>
      match parseDateYYMMDD ((s.drop 1).take 6) with
      | none => .error (.unknownValueFormat ("не удалось разобрать дату баланса"))
      | some date =>
        let cur := (s.drop 7).take 3
        let amountStr := rustTrimList (s.drop 10)
        match parseDecimal (amountStr.map (fun c => if c = ',' then '.' else c)) with
        | none =>
          .error (.unknownValueFormat ("не удалось разобрать сумму баланса"))
        | some amount =>
          .ok ⟨is_intermediate, ⟨ext_dc, date, String.mk cur, amount⟩⟩

/-- Split a character list on newline characters (each separator starts a
new piece). -/
def splitOnNL : List Char → List (List Char)
  | [] => [[]]
  | c :: rest =>
    let r := splitOnNL rest
    if c = '\n' then [] :: r
    else
      match r with
      | h :: t => (c :: h) :: t
      | [] => [[c]]

/-- Rust `BufRead::lines` / the line structure of a statement string: split
on `\n`, with a trailing newline producing no final empty line. -/
def rustLines (cs : List Char) : List (List Char) :=
  if cs.isEmpty then []
  else
    let p := splitOnNL cs
    if p.getLast? = some [] then p.dropLast else p

/-- Does this line start an MT940 field, and with which tag/value?
Modelled from the spec: the external `mt940` crate's `parse_fields`
splits a block-4 payload into `:TAG:VALUE` fields (spec §4.3/§6), a
value possibly continuing over following lines. -/
def fieldStart (line : List Char) : Option (List Char × List Char) :=
  match line with
  | ':' :: rest =>
    let tag := rest.takeWhile (fun c => c ≠ ':')
    let rem := rest.dropWhile (fun c => c ≠ ':')
    (match rem with
      | ':' :: value =>
        if tag ≠ [] ∧ tag.all Char.isAlphanum then some (tag, value) else none
      | _ => none)
  | _ => none

/-- Accumulate `:TAG:VALUE` fields over the lines of a block-4 payload
(continuation lines are newline-joined into the current value). -/
def collectFields :
    List (List Char) → Option (List Char × List Char) →
      List (String × String) → Except FormatErr (List (String × String))
  | [], cur, acc =>
    .ok (acc ++ (cur.map (fun p => (String.mk p.1, String.mk p.2))).toList)
  | line :: rest, cur, acc =>
    match fieldStart line with
    | some (tag, value) =>
      collectFields rest (some (tag, value))
        (acc ++ (cur.map (fun p => (String.mk p.1, String.mk p.2))).toList)
    | none =>
      match cur with
      | some (tag, v) => collectFields rest (some (tag, v ++ '\n' :: line)) acc
      | none =>
        if rustTrimList line = [] then collectFields rest none acc
        else .error (.unknownValueFormat ("не удалось разбить строку на блоки"))

/-- Modelled from the spec: `mt940::parse_fields` (external crate) as
described in §4.3/§6 — split the payload into tagged fields. -/
def parseFieldsModel (s : List Char) : Except FormatErr (List (String × String)) :=
  collectFields (rustLines s) none []

/-- The per-field dispatch loop of `MT940Format::parse_block4`
(`mt940_format.rs` lines 163–257). -/
def runFields :
    List (String × String) → Option Message → List Message →
      Except FormatErr (List Message)
  | [], cur, msgs => .ok (msgs ++ cur.toList)
  | (tag, value) :: rest, cur, msgs =>
    if tag = "20" then
      runFields rest (some { transaction_ref_no := value }) (msgs ++ cur.toList)
    else if tag = "21" then
      match cur with
      | none => .error (.dataFormatError ("найден блок 21 без блока 20"))
      | some m => runFields rest (some { m with ref_to_related_msg := some value }) msgs
    else if tag = "25" then
      match cur with
      | none => .error (.dataFormatError ("найден блок 25 без блока 20"))
      | some m => runFields rest (some { m with account_id := value }) msgs
    else if tag = "28" ∨ tag = "28C" then
      match cur with
      | none => .error (.dataFormatError ("найден блок 28/28C без блока 20"))
      | some m =>
        match rustSplitOnce value.data ['/'] with
        | some (a, b) =>
          runFields rest
            (some { m with statement_no := String.mk a, sequence_no := some (String.mk b) })
            msgs
        | none =>
          runFields rest (some { m with statement_no := value, sequence_no := none }) msgs
    else if tag = "60F" ∨ tag = "60M" then
      match cur with
      | none => .error (.dataFormatError ("найден блок 60 без блока 20"))
      | some m =>
        match parseBalance value.data 11 (tag.data.getLast? = some 'M') with
        | .error e => .error e
        | .ok b => runFields rest (some { m with opening_balance := b }) msgs
    else if tag = "61" then
      match cur with
      | none => .error (.dataFormatError ("найден блок 61 без блока 20"))
      | some m =>
        match parse61 value.data with
        | .error e => .error e
        | .ok st =>
          runFields rest (some { m with statement_lines := m.statement_lines ++ [st] }) msgs
    else if tag = "86" then
      match cur with
      | none => .error (.dataFormatError ("найден блок 86 без блока 20"))
      | some m =>
        match m.statement_lines.getLast? with
        | some last =>
          runFields rest
            (some { m with statement_lines :=
              m.statement_lines.dropLast ++
                [{ last with information_to_account_owner := some value }] })
            msgs
        | none =>
          runFields rest (some { m with information_to_account_owner := some value }) msgs
    else if tag = "62F" ∨ tag = "62M" then
      match cur with
      | none => .error (.dataFormatError ("найден блок 62 без блока 20"))
      | some m =>
        match parseBalance value.data 11 (tag.data.getLast? = some 'M') with
        | .error e => .error e
        | .ok b => runFields rest (some { m with closing_balance := b }) msgs
    else if tag = "64" then
      match cur with
      | none => .error (.dataFormatError ("найден блок 64 без блока 20"))
      | some m =>
        match parseBalance value.data 13 false with
        | .error e => .error e
        | .ok b =>
          runFields rest (some { m with closing_available_balance := some b.balance }) msgs
    else if tag = "65" then
      match cur with
      | none => .error (.dataFormatError ("найден блок 65 без блока 20"))
      | some m =>
        match parseBalance value.data 13 false with
        | .error e => .error e
        | .ok b =>
          runFields rest (some { m with forward_available_balance := some b.balance }) msgs
    else .error (.unsupportedTag ("неизвестный или недопустимый тег"))

/-- `MT940Format::parse_block4`. -/
def parseBlock4 (statement : List Char) : Except FormatErr (List Message) :=
  match parseFieldsModel statement with
  | .error e => .error e
  | .ok fields => runFields fields none []

/-- `MT940Format` (the parsed messages plus the preserved non-block
text). -/
structure MT940Format where
  transactions : List Message := []
  other_data : List String := []
deriving DecidableEq, Repr

/-- Match of the block-4 opening delimiter regex (a literal `\x7d`, then
any run of `\x7b` or space, then `4:`) at the head of the list; returns
the match length. -/
def matchStartAt (cs : List Char) : Option Nat :=
  match cs with
  | '\x7d' :: rest =>
    let run := rest.takeWhile (fun c => c = '\x7b' ∨ c = ' ')
    (match rest.drop run.length with
      | '4' :: ':' :: _ => some (1 + run.length + 2)
      | _ => none)
  | _ => none

/-- Match of the block-4 closing delimiter regex (`-` then `)` or `\x7d`,
or a bare `\x7d`) at the head of the list; returns the match length.
Alternation order follows the source pattern, so at the same position the
two-character alternative wins. -/
def matchEndAt (cs : List Char) : Option Nat :=
  match cs with
  | '-' :: c :: _ => if c = ')' ∨ c = '\x7d' then some 2 else none
  | '\x7d' :: _ => some 1
  | _ => none

/-- Leftmost match of a head-matcher over a line: returns (start, end)
offsets (regex `find` semantics). -/
def findFirst (f : List Char → Option Nat) : List Char → Nat → Option (Nat × Nat)
  | [], _ => none
  | c :: rest, j =>
    match f (c :: rest) with
    | some len => some (j, j + len)
    | none => findFirst f rest (j + 1)

/-- Append to the last element of a nonempty string list (Rust
`last_mut().push_str`). -/
def appendLast (xs : List String) (s : String) : List String :=
  xs.dropLast ++ [xs.getLast! ++ s]

/-- The reading-state machine of `MT940Format::from_read` (`Ready` is
resolved within the same iteration, so only these two states persist
between lines). -/
inductive MTReadState where
  | empty
  | accumulate
deriving DecidableEq, Repr

/-- The line loop of `MT940Format::from_read` (`mt940_format.rs` lines
460–496). -/
def mt940Go :
    List (List Char) → List Char → MTReadState → List Message → List String →
      Except FormatErr MT940Format
  | [], _, _, transactions, other_data => .ok ⟨transactions, other_data⟩
  | line :: rest, accum, state, transactions, other_data =>
    match findFirst matchStartAt line 0 with
    | some (s, e) =>
      let od :=
        if other_data ≠ [] then appendLast other_data (String.mk line)
        else other_data ++ [String.mk (line.take s)]
      mt940Go rest (accum ++ line.drop e ++ ['\n']) .accumulate transactions od
    | none =>
      if state = .accumulate then
        match findFirst matchEndAt line 0 with
        | some (es, ee) =>
          let od := other_data ++ [String.mk (line.drop ee)]
          -- state becomes Ready: the accumulated payload is parsed now
          match parseBlock4 (accum ++ line.take es) with
          | .error e => .error e
          | .ok msgs => mt940Go rest [] .empty (transactions ++ msgs) od
        | none =>
          mt940Go rest (accum ++ line ++ ['\n']) .accumulate transactions other_data
      else
        let od :=
          if other_data ≠ [] then appendLast other_data (String.mk line)
          else other_data ++ [String.mk line]
        mt940Go rest accum state transactions od

/-- `MT940Format::from_read`. -/
def mt940FromRead (input : String) : Except FormatErr MT940Format :=
  mt940Go (rustLines input.data) [] .empty [] []

/-- `Tag` from `camt053_format.rs`.  The Rust struct also carries a weak
`parent` back-reference; in this embedding, a node's parent is the node
at the position one index shorter, so the back-reference needs no field
(parse-produced trees satisfy the linkage invariant, and the logical
root's parent — the dropped virtual root — upgrades to nothing). -/
inductive Tag where
  | node (name : String) (text : Option String) (attrs : List (String × String))
      (children : List Tag)

def Tag.name : Tag → String
  | .node n _ _ _ => n

def Tag.text : Tag → Option String
  | .node _ t _ _ => t

def Tag.attrs : Tag → List (String × String)
  | .node _ _ a _ => a

def Tag.children : Tag → List Tag
  | .node _ _ _ cs => cs

mutual

def Tag.size : Tag → Nat
  | .node _ _ _ cs => 1 + sizeListTag cs

def sizeListTag : List Tag → Nat
  | [] => 0
  | t :: ts => Tag.size t + sizeListTag ts

end

/-- The node of `t` addressed by a list of child indices (the position
model of the iterator's current node; the empty position is the tree's
root). -/
def subtree : Tag → List Nat → Option Tag
  | t, [] => some t
  | t, i :: p =>
    match t.children.get? i with
    | some c => subtree c p
    | none => none

mutual

/-- Specification-side pre-order: every position of the tree, each node
before its children, children in list order. -/
def preorderPos : Tag → List (List Nat)
  | .node _ _ _ cs => [] :: preorderPosList 0 cs

def preorderPosList : Nat → List Tag → List (List Nat)
  | _, [] => []
  | i, c :: cs =>
    (preorderPos c).map (fun p => i :: p) ++ preorderPosList (i + 1) cs

end

/-- `Camt053Iter::get_next_in_parent` in the position model: pop the last
index; if the parent has a further child, move to it, else keep
ascending; at the root (no parent) the traversal is exhausted.  The
argument is the reversed position. -/
def ascendR (t : Tag) : List Nat → Option (List Nat)
  | [] => none
  | i :: q =>
    match subtree t q.reverse with
    | none => none
    | some parent =>
      if i + 1 < parent.children.length then some (q.reverse ++ [i + 1])
      else ascendR t q

def ascend (t : Tag) (p : List Nat) : Option (List Nat) :=
  ascendR t p.reverse

/-- One advance of `Camt053Iter::next` after the current node was
yielded: descend into the first child if present, else ascend through
parents to the next sibling. -/
def nextPos (t : Tag) (p : List Nat) : Option (List Nat) :=
  match subtree t p with
  | none => none
  | some u => if u.children.isEmpty then ascend t p else some (p ++ [0])

/-- The iterator's emission sequence: the current position is yielded,
then the iterator advances until exhausted (`fuel` bounds the number of
yields; `iterRun` supplies the tree size). -/
def runFrom (t : Tag) : Nat → List Nat → List (List Nat)
  | 0, _ => []
  | fuel + 1, p =>
    p ::
      (match nextPos t p with
        | none => []
        | some q => runFrom t fuel q)

/-- All positions yielded by a freshly constructed `Camt053Iter` over
`t`. -/
def iterRun (t : Tag) : List (List Nat) :=
  runFrom t t.size []

/-- Names of the nodes along a position (excluding the root's own
name). -/
def namesAlong (t : Tag) (p : List Nat) : List String :=
  match p with
  | [] => []
  | i :: q =>
    match t.children.get? i with
    | some c => c.name :: namesAlong c q
    | none => []

/-- `Vec::join("/")` on the iterator's name stack. -/
def joinSlash : List String → String
  | [] => ""
  | [x] => x
  | x :: xs => x ++ "/" ++ joinSlash xs

/-- The slash-delimited path the iterator computes for a node: '/' plus
the root-inclusive ancestor names joined by '/'. -/
def pathString (t : Tag) (p : List Nat) : String :=
  "/" ++ joinSlash (t.name :: namesAlong t p)

/-- `TagView` from `camt053_iterator.rs` (`text()` yields the empty
string when the node has none). -/
structure TagView where
  path : String
  text : String
  attrs : List (String × String)
deriving DecidableEq, Repr

def viewAt (t : Tag) (p : List Nat) : TagView :=
  match subtree t p with
  | some u => ⟨pathString t p, u.text.getD "", u.attrs⟩
  | none => ⟨"", "", []⟩

/-- The sequence of `TagView`s yielded by `Camt053Format::get_iter`. -/
def iterViews (t : Tag) : List TagView :=
  (iterRun t).map (viewAt t)

/-- `TagView::get_attr`: first attribute with the given key. -/
def TagView.getAttr (v : TagView) (key : String) : Option String :=
  (v.attrs.find? (fun x => x.1 = key)).map (fun x => x.2)

/-- One view step of `Camt053Format::collect_transactions`
(`camt053_format.rs` lines 522–561).  Returns `none` when the source
panics: in the `/Stmt/Ntry/ValDt/Dt` arm the source slices `&val[..10]`
before checking the length, which is out of range when the date text is
shorter than 10 bytes (reached only when a transaction is in progress,
as the `if let` chain short-circuits). -/
def camtStep (tr : Option Transaction) (acc : List Transaction) (v : TagView) :
    Option (Option Transaction × List Transaction) :=
  match rustSplitOnce v.path.data (("/Stmt").data) with
  | none => some (tr, acc)
  | some (_, r) =>
    let suffix := ("/Stmt").data ++ r
    if suffix = ("/Stmt/Ntry").data then
      some (some {}, acc ++ tr.toList)
    else if suffix = ("/Stmt/Ntry/Amt").data then
      match tr with
      | none => some (none, acc)
      | some t =>
        let t1 :=
          ((parseDecimal (v.text.data.map (fun c => if c = ',' then '.' else c))).map
            (fun a => { t with amount := a })).getD t
        let t2 := ((v.getAttr ("Ccy")).map (fun c => { t1 with currency := c })).getD t1
        some (some t2, acc)
    else if suffix = ("/Stmt/Ntry/CdtDbtInd").data then
      match tr with
      | none => some (none, acc)
      | some t =>
        let op : DebitOrCredit :=
          if v.text = "DBIT" then .debit
          else if v.text = "CRDT" then .credit
          else .debit
        some (some { t with operation_type := op }, acc)
    else if suffix = ("/Stmt/Ntry/ValDt/Dt").data then
      match tr with
      | none => some (none, acc)
      | some t =>
        if v.text.data.length < 10 then none
        else
          let t1 :=
            ((parseDateISO (v.text.data.take 10)).map
              (fun d => { t with date := d })).getD t
          some (some t1, acc)
    else some (tr, acc)

def camtGo : List TagView → Option Transaction → List Transaction →
    Option ((List Transaction))
  | [], tr, acc => some (acc ++ tr.toList)
  | v :: rest, tr, acc =>
    match camtStep tr acc v with
    | none => none
    | some (tr2, acc2) => camtGo rest tr2 acc2

/-- `Camt053Format::collect_transactions` over the iterator's view
sequence; `none` models a panic. -/
def camtCollectTransactions (t : Tag) : Option (List Transaction) :=
  camtGo (iterViews t) none []

/-- The XML events `Camt053Format::from_read` consumes (quick_xml's
`Start`/`Text`/`End`/`Comment`; whitespace-only text events are already
discarded by `trim_text(true)`). -/
inductive XEvent where
  | start (name : String) (attrs : List (String × String))
  | text (s : String)
  | close (name : String)
  | comment
deriving DecidableEq, Repr

/-- One event step of the tree construction in
`Camt053Format::from_read` (`camt053_format.rs` lines 65–143).  The
state is the zipper of open nodes, innermost first; the bottom element
is the synthetic empty-named virtual root. -/
def xmlStep (stack : List Tag) (e : XEvent) : Except FormatErr (List Tag) :=
  match e with
  | .start n a => .ok (Tag.node n none a [] :: stack)
  | .text _s =>
    match stack with
    | Tag.node n _ a cs :: rest =>
      if n = "" then
        .error (.dataFormatError ("не найден тег которому принадлежит текст"))
      else .ok (Tag.node n (some _s) a cs :: rest)
    | [] => .error (.unknownError ("ошибка чтения данных"))
  | .close n =>
    match stack with
    | Tag.node cn tx a cs :: parents =>
      if cn = "" ∨ cn ≠ n then
        .error (.dataFormatError ("найден закрывающийся тег но ожидался другой"))
      else
        match parents with
        | Tag.node pn ptx pa pcs :: rest =>
          .ok (Tag.node pn ptx pa (pcs ++ [Tag.node cn tx a cs]) :: rest)
        | [] => .error (.unknownError ("ошибка чтения данных"))
    | [] => .error (.unknownError ("ошибка чтения данных"))
  | .comment => .ok stack

def runXmlEvents : List XEvent → List Tag → Except FormatErr (List Tag)
  | [], stack => .ok stack
  | e :: rest, stack =>
    match xmlStep stack e with
    | .error err => .error err
    | .ok stack2 => runXmlEvents rest stack2

/-- `Camt053Format::from_read` at the event level: build the tree under
the virtual root, then keep `childrens[0]` of the node that is current
at end-of-stream as the format's root. -/
def fromEvents (es : List XEvent) : Except FormatErr Tag :=
  match runXmlEvents es [Tag.node "" none [] []] with
  | .error e => .error e
  | .ok [] => .error (.unknownError ("ошибка чтения данных"))
  | .ok (Tag.node _ _ _ cs :: _) =>
    match cs.head? with
    | some c => .ok c
    | none => .error (.dataFormatError ("не удалось прочитать ни одного тега"))

mutual

/-- `Camt053Format::write` (the XML serializer) at the event level:
start tag with attributes, text if present, children in order, end
tag. -/
def emit : Tag → List XEvent
  | .node n tx a cs =>
    XEvent.start n a ::
      ((tx.map (fun s => [XEvent.text s])).getD [] ++ emitList cs ++ [XEvent.close n])

def emitList : List Tag → List XEvent
  | [] => []
  | t :: ts => emit t ++ emitList ts

end

mutual

/-- Every node of the tree has a nonempty name (true of every tree whose
events a well-formed XML document produces; an empty-named element is
rejected at its end tag). -/
def namesNonEmpty : Tag → Bool
  | .node n _ _ cs => (n != "") && namesNonEmptyList cs

def namesNonEmptyList : List Tag → Bool
  | [] => true
  | t :: ts => namesNonEmpty t && namesNonEmptyList ts

end

/-- The scan states of `CSVFormat::from_read`. -/
inductive CSVState where
  | before
  | header
  | data
  | after
deriving DecidableEq, Repr

/-- `CSVFormat` from `csv_format.rs`. -/
structure CSVFormat where
  columns : List String := []
  table : List (List String) := []
  other_before : List (List String) := []
  other_after : List (List String) := []
deriving DecidableEq, Repr

/-- The header cell that anchors table detection. -/
def anchorCell : String := "Дата проводки"

def debitCol : String := "Сумма по дебету"

def creditCol : String := "Сумма по кредиту"

/-- `CSVFormat::is_header_like`: no non-empty cell contains a digit. -/
def isHeaderLike (cells : List String) : Bool :=
  cells.all (fun cell => cell.isEmpty || !(cell.data.any Char.isDigit))

/-- `CSVFormat::join_columns`: append each non-empty cell to the column
at the same index (the caller always passes the span slice, whose length
equals `columns.length` — a shorter row has already panicked at the
slice). -/
def joinColumns (columns cells : List String) : List String :=
  (columns.zip cells).map (fun p => if p.2 = "" then p.1 else p.1 ++ p.2)

def firstIdxNonEmpty (cells : List String) : Option Nat :=
  cells.findIdx? (fun s => s ≠ "")

def lastIdxNonEmpty (cells : List String) : Option Nat :=
  (cells.reverse.findIdx? (fun s => s ≠ "")).map (fun j => cells.length - 1 - j)

/-- The per-record state of the `CSVFormat::from_read` scan. -/
structure ScanState where
  st : CSVState
  columns : List String
  table : List (List String)
  other_before : List (List String)
  other_after : List (List String)
  span : Nat × Nat
deriving DecidableEq, Repr

/-- One record of the `CSVFormat::from_read` scan (`csv_format.rs` lines
70–129).  Returns `none` where the source panics: the slice
`&cells[span.0..span.1]` is out of range when the record has fewer cells
than the span's end. -/
def csvStep (s : ScanState) (rec : List String) : Option ScanState :=
  let cells := rec.map rustTrim
  match s.st with
  | .before =>
    if cells.contains anchorCell then
      match firstIdxNonEmpty cells, lastIdxNonEmpty cells with
      | some f, some l =>
        some { s with st := .header, span := (f, l + 1),
                      columns := (cells.drop f).take (l + 1 - f) }
      | _, _ => some s
    else some { s with other_before := s.other_before ++ [cells] }
  | .header =>
    if cells.length < s.span.2 then none
    else
      let slice := (cells.drop s.span.1).take (s.span.2 - s.span.1)
      if isHeaderLike slice then some { s with columns := joinColumns s.columns slice }
      else some { s with st := .data, table := s.table ++ [slice] }
  | .data =>
    if cells.all (fun c => c = "") then
      some { s with st := .after, other_after := s.other_after ++ [cells] }
    else if cells.length < s.span.2 then none
    else
      some { s with table :=
        s.table ++ [(cells.drop s.span.1).take (s.span.2 - s.span.1)] }
  | .after => some { s with other_after := s.other_after ++ [cells] }

def csvScan : List (List String) → ScanState → Option ScanState
  | [], s => some s
  | rec :: rest, s =>
    match csvStep s rec with
    | none => none
    | some s2 => csvScan rest s2

def csvEmptyMsg : String :=
  "не удалось распарсить данные. В результате разбора список колонок и таблица получились пустыми"

def csvInitState : ScanState :=
  ⟨.before, [], [], [], [], (0, 0)⟩

/-- `CSVFormat::from_read` at the record level (the byte-level
encode/decode of the `csv` crate is modelled as the identity on records;
records that fail to decode are skipped by `filter_map(Result::ok)` and
are simply absent from the input list).  `none` models a panic. -/
def csvFromRead (rows : List (List String)) : Option (Except FormatErr CSVFormat) :=
  match csvScan rows csvInitState with
  | none => none
  | some s =>
    if s.columns.isEmpty ∨ s.table.isEmpty then
      some (.error (.dataFormatError csvEmptyMsg))
    else some (.ok ⟨s.columns, s.table, s.other_before, s.other_after⟩)

/-- `CSVFormat::write_to` at the record level: prologue rows, the
columns row, the table rows, the epilogue rows, in that order. -/
def csvWriteTo (f : CSVFormat) : List (List String) :=
  f.other_before ++ [f.columns] ++ f.table ++ f.other_after

/-- The last-insert-wins column index (the source fills a `HashMap` by
scanning `columns`). -/
def lookupLast (assoc : List (String × Nat)) (k : String) : Option Nat :=
  (assoc.reverse.find? (fun p => p.1 = k)).map (fun p => p.2)

def csvIndexOf (columns : List String) : List (String × Nat) :=
  columns.enum.foldl
    (fun acc p =>
      if p.2 = anchorCell ∨ p.2 = debitCol ∨ p.2 = creditCol then acc ++ [(p.2, p.1)]
      else acc)
    []

/-- The per-row loop of `CSVFormat::collect_transactions`
(`csv_format.rs` lines 209–232).  `none` models a panic: `row[index[k]]`
panics when the key is absent from the `HashMap` or the index is out of
range. -/
def csvCollectGo (index : List (String × Nat)) :
    List (List String) → List Transaction → Option (List Transaction)
  | [], acc => some acc
  | row :: rest, acc =>
    match lookupLast index anchorCell with
    | none => none
    | some di =>
      match row.get? di with
      | none => none
      | some dateCell =>
        let tDate := (parseDateDMY dateCell.data).getD Date.default
        match lookupLast index debitCol with
        | none => none
        | some dbi =>
          match row.get? dbi with
          | none => none
          | some debitCell =>
            if debitCell = "" then
              match lookupLast index creditCol with
              | none => none
              | some cri =>
                match row.get? cri with
                | none => none
                | some creditCell =>
                  let amount :=
                    (parseDecimal
                      (creditCell.data.map (fun c => if c = ',' then '.' else c))).getD 0
                  csvCollectGo index rest (acc ++ [⟨amount, "", tDate, .credit⟩])
            else
              let amount :=
                (parseDecimal
                  (debitCell.data.map (fun c => if c = ',' then '.' else c))).getD 0
              csvCollectGo index rest (acc ++ [⟨amount, "", tDate, .debit⟩])

/-- `CSVFormat::collect_transactions`; `none` models a panic. -/
def csvCollectTransactions (f : CSVFormat) : Option (List Transaction) :=
  csvCollectGo (csvIndexOf f.columns) f.table []

/-! ## Concrete inputs used by the theorems -/

def c1TxA : Transaction :=
  { amount := 10, currency := "", date := ⟨2026, 1, 1⟩, operation_type := .debit }

def c1TxB : Transaction :=
  { amount := 20, currency := "", date := ⟨2026, 1, 1⟩, operation_type := .debit }

/-- A parse-producible CAMT.053 tree whose `/Stmt/Ntry/ValDt/Dt` text is
shorter than 10 characters. -/
def c2Tree : Tag :=
  .node "Document" none []
    [.node "Stmt" none []
      [.node "Ntry" none []
        [.node "ValDt" none [] [.node "Dt" (some "2024") [] []]]]]

def c2Rows : List (List String) :=
  [["Дата проводки", "X"], ["01.01.2024", "5"]]

/-- The parse of `c2Rows`: the header lacks the debit-amount and
credit-amount columns. -/
def c2Fmt : CSVFormat :=
  ⟨["Дата проводки", "X"], [["01.01.2024", "5"]], [], []⟩

def mt940Scenario : String :=
  ":20:TRN1\n:25:DE00\n:28C:1/1\n:60F:C240101EUR100,00\n:61:2401020102D1,23NTRFREF1//BANK1\n:86:NOTE\n:62F:C240102EUR98,77"

/-- The scenario text wrapped in a block-4 envelope (an opening line
matching the `\x7d[\x7b ]*4:` start pattern and the `-\x7d` closing
delimiter). -/
def c3Wrapped : String :=
  "\x7b1:X\x7d\x7b4:\n" ++ mt940Scenario ++ "\n-\x7d"

/-- The one message the scenario's block-4 payload parses to. -/
def c3Message : Message :=
  { transaction_ref_no := "TRN1"
    ref_to_related_msg := none
    account_id := "DE00"
    statement_no := "1"
    sequence_no := some "1"
    opening_balance :=
      ⟨false, ⟨.credit, ⟨2024, 1, 1⟩, "EUR", 100⟩⟩
    statement_lines :=
      [{ value_date := ⟨2024, 1, 2⟩
         entry_date := some ⟨2024, 1, 2⟩
         ext_debit_credit_indicator := .debit
         funds_code := none
         amount := 123 / 100
         transaction_type_ident_code := "TRF"
         customer_ref := "REF1"
         bank_ref := some "BANK1"
         supplementary_details := none
         information_to_account_owner := some "NOTE" }]
    closing_balance :=
      ⟨false, ⟨.credit, ⟨2024, 1, 2⟩, "EUR", 9877 / 100⟩⟩
    closing_available_balance := none
    forward_available_balance := none
    information_to_account_owner := none }

def c8Rows1 : List (List String) :=
  [["Дата проводки", "A", "B"], ["1", "2", "3"], ["", "", "", "x"]]

/-- The parse of `c8Rows1`: its second table row is empty within the
detected span (the original record was non-empty only outside the
span). -/
def c8Fmt1 : CSVFormat :=
  ⟨["Дата проводки", "A", "B"], [["1", "2", "3"], ["", "", ""]], [], []⟩

def c8Rows2 : List (List String) :=
  [["Дата проводки", "A"], ["x", ""], ["1", "2"]]

/-- The parse of `c8Rows2`: the header-like continuation row appended
text to the anchor column, so the serialized header no longer contains
the anchor cell. -/
def c8Fmt2 : CSVFormat :=
  ⟨["Дата проводкиx", "A"], [["1", "2"]], [], []⟩

/-! ## Theorems -/

/-- Claim C1 (code bug): the comparer's lock-step loop never stops on a
structurally unequal pair — the source's `if t1 == t2 { continue; }` has
no `else` arm, so two same-length sequences always compare as identical,
here two singleton sequences whose transactions differ in amount. -/
theorem comparer_ignores_unequal_pairs :
    c1TxA ≠ c1TxB ∧
    comparerRun (holderNew [c1TxA]) (holderNew [c1TxB]) = .identical := by
  constructor
  · with_unfolding_all decide
  · with_unfolding_all rfl

/-- Claim C2 (code bug): extraction is not total.  For a parse-producible
CAMT.053 tree whose `/Stmt/Ntry/ValDt/Dt` text is shorter than 10
characters, `collect_transactions` panics (`&val[..10]` byte-slice out of
range); for a successfully parsed CSV whose header lacks the debit-amount
column, `collect_transactions` panics (`HashMap` index on a missing key).
`none` models the panic. -/
theorem collect_transactions_panics :
    fromEvents (emit c2Tree) = .ok c2Tree ∧
    camtCollectTransactions c2Tree = none ∧
    csvFromRead c2Rows = some (.ok c2Fmt) ∧
    csvCollectTransactions c2Fmt = none := by
  refine ⟨rfl, ?_, ?_, ?_⟩ <;> with_unfolding_all rfl

/-- Claim C3 (counterexample): feeding the scenario text to
`MT940Format::from_read` does not yield one Message — the text contains
no block-4 delimiters, so every line is preserved as other data and the
parsed format holds zero messages. -/
theorem mt940_scenario_from_read_yields_no_message :
    mt940FromRead mt940Scenario =
      .ok { transactions := [],
            other_data :=
              [":20:TRN1:25:DE00:28C:1/1:60F:C240101EUR100,00:61:2401020102D1,23NTRFREF1//BANK1:86:NOTE:62F:C240102EUR98,77"] } := by
  with_unfolding_all rfl

/-- Claim C3 (amended): the scenario text given to the block-4 field
parser — equivalently, wrapped in a block-4 envelope and given to
`from_read` — parses to exactly one Message with
`transaction_ref_no = "TRN1"` and one StatementLine with amount 1.23,
Debit indicator, customer_ref "REF1", bank_ref "BANK1" and narrative
"NOTE". -/
theorem mt940_scenario_block4_one_message :
    parseBlock4 mt940Scenario.data = .ok [c3Message] ∧
    mt940FromRead c3Wrapped =
      .ok { transactions := [c3Message], other_data := ["\x7b1:X", ""] } := by
  constructor
  · with_unfolding_all rfl
  · with_unfolding_all rfl

/-- Claim C9 (code bug): `CSVFormat::from_read` can crash.  After the
header row fixes the span `0..3`, a record with a single cell makes the
slice `&cells[0..3]` panic (`none` models the panic), instead of the
claimed ok-or-FormatError outcome. -/
theorem csv_from_read_panics_on_short_row :
    csvFromRead [["Дата проводки", "A", "B"], ["x"]] = none := by
  with_unfolding_all rfl

/-- Claim C8 (counterexample): the round trip does not always preserve
the table.  For `c8Rows1` the parse keeps a row that is empty inside the
span, and reparsing the serialized output terminates the table at that
row (2 rows shrink to 1); for `c8Rows2` a header continuation row
appends to the anchor column, and reparsing fails to find any header at
all. -/
theorem csv_roundtrip_counterexample :
    csvFromRead c8Rows1 = some (.ok c8Fmt1) ∧
    c8Fmt1.table.length = 2 ∧
    csvFromRead (csvWriteTo c8Fmt1) =
      some (.ok ⟨["Дата проводки", "A", "B"], [["1", "2", "3"]], [],
        [["", "", ""]]⟩) ∧
    csvFromRead c8Rows2 = some (.ok c8Fmt2) ∧
    csvFromRead (csvWriteTo c8Fmt2) =
      some (.error (.dataFormatError csvEmptyMsg)) := by
  refine ⟨?_, rfl, ?_, ?_, ?_⟩ <;> with_unfolding_all rfl

/-- Two characters are available at position `i`: the 2- and 1-character
windows the parser slices are determined by the characters at `i` and
`i + 1`. -/
theorem take_two_of_le {s : List Char} {i : Nat} (h : i + 2 ≤ s.length) :
    ∃ a b, s.get? i = some a ∧ s.get? (i + 1) = some b ∧
      (s.drop i).take 2 = [a, b] ∧ (s.drop i).take 1 = [a] := by
  have h1 : i < s.length := by omega
  have h2 : i + 1 < s.length := by omega
  have hd : s.drop i = s[i] :: s.drop (i + 1) := List.drop_eq_getElem_cons h1
  have hd2 : s.drop (i + 1) = s[i + 1] :: s.drop (i + 2) :=
    List.drop_eq_getElem_cons h2
  refine ⟨s[i], s[i + 1], ?_, ?_, ?_, ?_⟩
  · rw [List.get?_eq_getElem?]
    exact List.getElem?_eq_getElem h1
  · rw [List.get?_eq_getElem?]
    exact List.getElem?_eq_getElem h2
  · rw [hd, hd2]
    rfl
  · rw [hd]
    rfl

/-- Claim C6: in the field-61 positional parse, the debit/credit token is
resolved by first trying the 2-character reversal codes — `RD` yields the
reverse-credit indicator, `RC` the reverse-debit indicator — otherwise
exactly one character is consumed and mapped as a plain code (`D` to
debit, `C` to credit), any other single character failing with
UnknownValueFormat. -/
theorem parse61_dc_resolution (s : List Char) (i : Nat) (h : i + 2 ≤ s.length) :
    (s.get? i = some 'R' ∧ s.get? (i + 1) = some 'D' →
      parse61DC s i = .ok (.reverseCredit, i + 2)) ∧
    (s.get? i = some 'R' ∧ s.get? (i + 1) = some 'C' →
      parse61DC s i = .ok (.reverseDebit, i + 2)) ∧
    (s.get? i = some 'D' → parse61DC s i = .ok (.debit, i + 1)) ∧
    (s.get? i = some 'C' → parse61DC s i = .ok (.credit, i + 1)) ∧
    (∀ c, s.get? i = some c → c ≠ 'D' → c ≠ 'C' →
      ¬(c = 'R' ∧ (s.get? (i + 1) = some 'D' ∨ s.get? (i + 1) = some 'C')) →
      parse61DC s i =
        .error (.unknownValueFormat ("Неизвестное обозначение для операции mt940"))) := by
  obtain ⟨a, b, ha, hb, htake2, htake1⟩ := take_two_of_le h
  refine ⟨?_, ?_, ?_, ?_, ?_⟩
  · rintro ⟨hr, hd⟩
    rw [ha] at hr
    rw [hb] at hd
    cases Option.some.inj hr
    cases Option.some.inj hd
    simp [parse61DC, h, htake2]
  · rintro ⟨hr, hd⟩
    rw [ha] at hr
    rw [hb] at hd
    cases Option.some.inj hr
    cases Option.some.inj hd
    simp [parse61DC, h, htake2]
  · intro hd
    rw [ha] at hd
    cases Option.some.inj hd
    simp [parse61DC, h, htake2, htake1, debitOrCreditFromStr]
  · intro hd
    rw [ha] at hd
    cases Option.some.inj hd
    simp [parse61DC, h, htake2, htake1, debitOrCreditFromStr]
  · intro c hc hcd hcc hno
    rw [ha] at hc
    cases Option.some.inj hc
    have hbne : a = 'R' → b ≠ 'D' ∧ b ≠ 'C' := by
      intro hr
      constructor <;> intro hb' <;> exact hno ⟨hr, by rw [hb, hb']; tauto⟩
    have hne1 : ([a, b] : List Char) ≠ ['R', 'D'] := by
      intro hx
      obtain ⟨h1, h2⟩ := by simpa using hx
      exact (hbne h1).1 h2
    have hne2 : ([a, b] : List Char) ≠ ['R', 'C'] := by
      intro hx
      obtain ⟨h1, h2⟩ := by simpa using hx
      exact (hbne h1).2 h2
    simp [parse61DC, h, htake2, htake1, hne1, hne2, debitOrCreditFromStr, hcd, hcc]

/-- Closed instance of C6: the reversal token `RD` at the start of `RD`
resolves to the reverse-credit indicator with two characters consumed. -/
theorem parse61_dc_resolution_witness :
    parse61DC ['R', 'D'] 0 = .ok (.reverseCredit, 0 + 2) :=
  (parse61_dc_resolution ['R', 'D'] 0 (by decide)).1 ⟨rfl, rfl⟩

/-- `split_once` finds the first occurrence: on `l ++ pat ++ r` with no
occurrence of `pat` starting inside `l`, it splits into `(l, r)`. -/
theorem rustSplitOnce_first (p : Char) (ps : List Char) :
    ∀ l r : List Char,
      (∀ k, k < l.length → ¬ (p :: ps) <+: (l ++ (p :: ps) ++ r).drop k) →
      rustSplitOnce (l ++ (p :: ps) ++ r) (p :: ps) = some (l, r) := by
  intro l
  induction l with
  | nil =>
    intro r _
    simp only [List.nil_append, List.cons_append]
    have hpre : List.isPrefixOf (p :: ps) (p :: (ps ++ r)) = true := by
      rw [List.isPrefixOf_iff_prefix]
      exact ⟨r, by simp⟩
    rw [rustSplitOnce, hpre]
    simp [List.drop_left]
  | cons c l' ih =>
    intro r hocc
    have h0 : ¬ (p :: ps) <+: (c :: (l' ++ (p :: ps) ++ r)) := by
      have := hocc 0 (by simp)
      simpa using this
    have hnp : List.isPrefixOf (p :: ps) (c :: (l' ++ (p :: ps) ++ r)) = false := by
      rw [Bool.eq_false_iff, Ne, List.isPrefixOf_iff_prefix]
      exact h0
    have hrec := ih r (fun k hk => by
      have := hocc (k + 1) (by simpa using Nat.succ_lt_succ hk)
      simpa using this)
    simp only [List.cons_append]
    rw [rustSplitOnce, hnp, hrec]
    simp

/-- `split_once` yields nothing when the pattern occurs nowhere. -/
theorem rustSplitOnce_none (p : Char) (ps : List Char) :
    ∀ cs : List Char, (∀ k, ¬ (p :: ps) <+: cs.drop k) →
      rustSplitOnce cs (p :: ps) = none := by
  intro cs
  induction cs with
  | nil =>
    intro _
    rw [rustSplitOnce]
    simp
  | cons c rest ih =>
    intro hocc
    have h0 : ¬ (p :: ps) <+: (c :: rest) := by simpa using hocc 0
    have hnp : List.isPrefixOf (p :: ps) (c :: rest) = false := by
      rw [Bool.eq_false_iff, Ne, List.isPrefixOf_iff_prefix]
      exact h0
    have hrec := ih (fun k => by simpa using hocc (k + 1))
    rw [rustSplitOnce, hnp, hrec]
    simp

/-- Claim C7: the tail remaining after the transaction type code splits
as follows — if it contains `//`, the text left of the first `//` is the
customer reference and the text right of it is the bank reference
truncated to 16 characters, any remainder becoming the supplementary
detail; otherwise a tail longer than 16 characters splits into a
16-character customer reference plus supplementary detail; otherwise the
whole tail is the customer reference. -/
theorem parse61_tail_split (tail : List Char) :
    (∀ l r, tail = l ++ ['/', '/'] ++ r →
      (∀ k, k < l.length → ¬ ['/', '/'] <+: tail.drop k) →
      splitTail tail =
        (l, some (r.take 16),
          if 16 < r.length then some (r.drop 16) else none)) ∧
    ((∀ k, k ≤ tail.length → ¬ ['/', '/'] <+: tail.drop k) →
      (16 < tail.length →
        splitTail tail = (tail.take 16, none, some (tail.drop 16))) ∧
      (tail.length ≤ 16 → splitTail tail = (tail, none, none))) := by
  constructor
  · intro l r heq hocc
    have hs : rustSplitOnce tail ['/', '/'] = some (l, r) := by
      rw [heq]
      exact rustSplitOnce_first '/' ['/'] l r (fun k hk => heq ▸ hocc k hk)
    rw [splitTail, hs]
    by_cases h16 : 16 < r.length
    · simp [h16]
    · simp only [if_neg h16]
      simp [h16]
      omega
  · intro hocc
    have hs : rustSplitOnce tail ['/', '/'] = none := by
      refine rustSplitOnce_none '/' ['/'] tail (fun k => ?_)
      by_cases hk : k ≤ tail.length
      · exact hocc k hk
      · intro hpre
        rw [List.drop_eq_nil_of_le (by omega)] at hpre
        simp at hpre
    constructor
    · intro h16
      rw [splitTail, hs]
      simp [h16]
    · intro h16
      rw [splitTail, hs]
      have hn : ¬ 16 < tail.length := by omega
      simp [hn]

/-- Closed instance of C7: a tail containing `//` with a 19-character
right part splits into customer reference, 16-character bank reference
and 3-character supplementary detail. -/
theorem parse61_tail_split_witness :
    splitTail ("REF1//0123456789ABCDEFXYZ").data =
      (("REF1").data, some (("0123456789ABCDEFXYZ").data.take 16),
        if 16 < ("0123456789ABCDEFXYZ").data.length then
          some (("0123456789ABCDEFXYZ").data.drop 16)
        else none) :=
  (parse61_tail_split ("REF1//0123456789ABCDEFXYZ").data).1
    ("REF1").data ("0123456789ABCDEFXYZ").data (by decide) (by decide)

/-- Append a built child to a frame (what closing a tag does to its
parent frame). -/
def addChild (fr t : Tag) : Tag :=
  match fr with
  | .node n tx a cs => .node n tx a (cs ++ [t])

/-- Append a list of built children to a frame. -/
def addChildren (fr : Tag) (ts : List Tag) : Tag :=
  match fr with
  | .node n tx a cs => .node n tx a (cs ++ ts)

theorem runXmlEvents_append (es1 es2 : List XEvent) (st : List Tag) :
    runXmlEvents (es1 ++ es2) st =
      match runXmlEvents es1 st with
      | .ok st2 => runXmlEvents es2 st2
      | .error e => .error e := by
  induction es1 generalizing st with
  | nil => rw [runXmlEvents]; simp
  | cons e es ih =>
    simp only [List.cons_append]
    rw [runXmlEvents, runXmlEvents]
    cases xmlStep st e with
    | error err => simp
    | ok st2 => simp [ih]

mutual

/-- Processing the serialization of a well-named tag in any open frame
appends exactly that tag to the frame's children. -/
theorem runEmit (t : Tag) (h : namesNonEmpty t = true) (fr : Tag)
    (rest : List Tag) :
    runXmlEvents (emit t) (fr :: rest) = .ok (addChild fr t :: rest) := by
  match t, fr with
  | .node n tx a cs, .node pn ptx pa pcs =>
    have hsub := h
    rw [namesNonEmpty] at hsub
    have hn : n ≠ "" := by
      have := (Bool.and_eq_true _ _).mp hsub |>.1
      simpa using this
    have hcs : namesNonEmptyList cs = true := (Bool.and_eq_true _ _).mp hsub |>.2
    rw [emit]
    rw [runXmlEvents]
    show (match xmlStep (Tag.node pn ptx pa pcs :: rest) (XEvent.start n a) with
      | Except.error err => Except.error err
      | Except.ok st2 => runXmlEvents
          ((tx.map (fun s => [XEvent.text s])).getD [] ++ emitList cs ++
            [XEvent.close n]) st2) = _
    rw [xmlStep]
    have hafter :
        runXmlEvents ((tx.map (fun s => [XEvent.text s])).getD [])
          (Tag.node n none a [] :: Tag.node pn ptx pa pcs :: rest) =
          .ok (Tag.node n tx a [] :: Tag.node pn ptx pa pcs :: rest) := by
      cases tx with
      | none => rw [Option.map_none', Option.getD_none, runXmlEvents]
      | some s =>
        rw [Option.map_some', Option.getD_some]
        rw [runXmlEvents]
        rw [xmlStep]
        simp only [if_neg hn]
        rw [runXmlEvents]
    show runXmlEvents
        ((tx.map (fun s => [XEvent.text s])).getD [] ++ emitList cs ++
          [XEvent.close n])
        (Tag.node n none a [] :: Tag.node pn ptx pa pcs :: rest) = _
    rw [runXmlEvents_append, runXmlEvents_append, hafter]
    show (match runXmlEvents (emitList cs)
        (Tag.node n tx a [] :: Tag.node pn ptx pa pcs :: rest) with
      | Except.ok st2 => runXmlEvents [XEvent.close n] st2
      | Except.error e => Except.error e) = _
    rw [runEmitList cs hcs (Tag.node n tx a []) (Tag.node pn ptx pa pcs :: rest)]
    show runXmlEvents [XEvent.close n]
        (addChildren (Tag.node n tx a []) cs :: Tag.node pn ptx pa pcs :: rest) = _
    rw [addChildren]
    rw [runXmlEvents]
    rw [xmlStep]
    simp only [List.nil_append]
    have hcond : ¬ (n = "" ∨ n ≠ n) := by simp [hn]
    simp only [if_neg hcond]
    rw [runXmlEvents]
    rw [addChild]
termination_by sizeOf t

/-- Processing the serializations of a list of well-named tags appends
exactly those tags to the frame's children. -/
theorem runEmitList (ts : List Tag) (h : namesNonEmptyList ts = true) (fr : Tag)
    (rest : List Tag) :
    runXmlEvents (emitList ts) (fr :: rest) = .ok (addChildren fr ts :: rest) := by
  match ts, fr with
  | [], .node pn ptx pa pcs =>
    rw [emitList, runXmlEvents, addChildren]
    simp
  | t :: ts2, .node pn ptx pa pcs =>
    have hsub := h
    rw [namesNonEmptyList] at hsub
    have ht : namesNonEmpty t = true := (Bool.and_eq_true _ _).mp hsub |>.1
    have hts : namesNonEmptyList ts2 = true := (Bool.and_eq_true _ _).mp hsub |>.2
    rw [emitList, runXmlEvents_append]
    rw [runEmit t ht (Tag.node pn ptx pa pcs) rest]
    show runXmlEvents (emitList ts2) (addChild (Tag.node pn ptx pa pcs) t :: rest) = _
    rw [addChild]
    rw [runEmitList ts2 hts (Tag.node pn ptx pa (pcs ++ [t])) rest]
    rw [addChildren, addChildren]
    simp
termination_by sizeOf ts

end

/-- Claim C10: when the XML stream holds more than one top-level element,
only the first is retained as the tree's logical root — the parse of the
two serialized elements equals the parse of the first alone, so
serialization, iteration and transaction extraction (all functions of
the returned tree) see only the first element's subtree, and the second
element and its descendants are discarded. -/
theorem fromEvents_keeps_first_top_level (t1 t2 : Tag)
    (h1 : namesNonEmpty t1 = true) (h2 : namesNonEmpty t2 = true) :
    fromEvents (emit t1 ++ emit t2) = .ok t1 ∧
    fromEvents (emit t1) = .ok t1 ∧
    fromEvents (emit t1 ++ emit t2) = fromEvents (emit t1) := by
  have hroot := runEmit t1 h1 (Tag.node "" none [] []) []
  have hboth : runXmlEvents (emit t1 ++ emit t2) [Tag.node "" none [] []] =
      .ok (Tag.node "" none [] [t1, t2] :: []) := by
    rw [runXmlEvents_append, hroot]
    show runXmlEvents (emit t2) (addChild (Tag.node "" none [] []) t1 :: []) = _
    rw [addChild]
    simp only [List.nil_append]
    rw [runEmit t2 h2 (Tag.node "" none [] [t1]) []]
    rw [addChild]
    rfl
  have hone : fromEvents (emit t1) = .ok t1 := by
    rw [fromEvents.eq_def, hroot, addChild]
    simp
  refine ⟨?_, hone, ?_⟩
  · rw [fromEvents.eq_def, hboth]
    simp
  · rw [fromEvents.eq_def, hboth, hone]
    simp

/-- Closed instance of C10: two concrete one-node documents; the parse of
their concatenated serializations returns the first. -/
theorem fromEvents_keeps_first_top_level_witness :
    fromEvents (emit (Tag.node "A" none [] []) ++
        emit (Tag.node "B" (some "x") [] [])) =
      .ok (Tag.node "A" none [] []) :=
  (fromEvents_keeps_first_top_level (Tag.node "A" none [] [])
    (Tag.node "B" (some "x") [] []) rfl rfl).1

theorem subtree_append (T : Tag) :
    ∀ (q p : List Nat), subtree T (q ++ p) = (subtree T q).bind (fun u => subtree u p) := by
  intro q
  induction q generalizing T with
  | nil => intro p; simp [subtree]
  | cons i q2 ih =>
    intro p
    rw [List.cons_append, subtree, subtree]
    cases T.children.get? i with
    | none => simp
    | some c => simp [ih c p]

theorem subtree_child (T : Tag) (q : List Nat) (parent c : Tag) (i : Nat)
    (hq : subtree T q = some parent) (hc : parent.children.get? i = some c) :
    subtree T (q ++ [i]) = some c := by
  rw [subtree_append, hq]
  rw [List.get?_eq_getElem?] at hc
  simp [subtree, hc]

theorem ascend_append (T : Tag) (q : List Nat) (i : Nat) (parent : Tag)
    (h : subtree T q = some parent) :
    ascend T (q ++ [i]) =
      if i + 1 < parent.children.length then some (q ++ [i + 1])
      else ascend T q := by
  rw [ascend, List.reverse_append]
  show ascendR T (i :: q.reverse) = _
  rw [ascendR, List.reverse_reverse, h]
  rfl

theorem match_cont_some (x : List Nat) (fuel : Nat) (T : Tag) :
    (match some x with
      | some q2 => runFrom T fuel q2
      | none => ([] : List (List Nat))) = runFrom T fuel x := rfl

mutual

/-- Starting at a valid position `q`, the iterator first yields the whole
subtree at `q` in pre-order (prefixed by `q`), and then continues from
the next sibling or ancestor sibling of `q`. -/
theorem runFrom_subtree (T : Tag) (t : Tag) (q : List Nat)
    (hq : subtree T q = some t) (fuel : Nat) :
    runFrom T (t.size + fuel) q =
      (preorderPos t).map (fun p => q ++ p) ++
        (match ascend T q with
          | some q2 => runFrom T fuel q2
          | none => []) := by
  match t with
  | .node n tx a cs =>
    match cs, hq with
    | [], hq =>
      have hsz : Tag.size (Tag.node n tx a []) + fuel = fuel + 1 := by
        rw [Tag.size, sizeListTag]; omega
      rw [hsz, runFrom, nextPos, hq]
      simp only [Tag.children, List.isEmpty_nil, if_pos]
      rw [preorderPos, preorderPosList]
      cases hasc : ascend T q <;> simp [hasc]
    | c :: cs2, hq =>
      have hsz : Tag.size (Tag.node n tx a (c :: cs2)) + fuel =
          (sizeListTag (c :: cs2) + fuel) + 1 := by
        rw [Tag.size]; omega
      rw [hsz, runFrom, nextPos, hq]
      simp only [Tag.children, List.isEmpty_cons, Bool.false_eq_true, if_false]
      have hdrop : (Tag.node n tx a (c :: cs2)).children.drop 0 = c :: cs2 := rfl
      rw [runFrom_children T (c :: cs2) q (Tag.node n tx a (c :: cs2)) 0 hq hdrop
        fuel (by simp)]
      rw [preorderPos]
      simp
  termination_by sizeOf t

/-- Starting at child `i` of the node at `q`, whose children from index
`i` on are `cs`, the iterator yields those children's subtrees in
pre-order and then continues above `q`. -/
theorem runFrom_children (T : Tag) (cs : List Tag) (q : List Nat)
    (parent : Tag) (i : Nat) (hq : subtree T q = some parent)
    (hdrop : parent.children.drop i = cs) (fuel : Nat) :
    cs ≠ [] →
    runFrom T (sizeListTag cs + fuel) (q ++ [i]) =
      (preorderPosList i cs).map (fun p => q ++ p) ++
        (match ascend T q with
          | some q2 => runFrom T fuel q2
          | none => []) := by
  match cs with
  | [] => intro hne; exact absurd rfl hne
  | [c] =>
    intro _
    have hlen : parent.children.length = i + 1 := by
      have h1 := congrArg List.length hdrop
      rw [List.length_drop] at h1
      have h2 : i ≤ parent.children.length := by
        by_contra hlt
        rw [List.drop_eq_nil_of_le (by omega)] at hdrop
        exact absurd hdrop.symm (by simp)
      simp at h1
      omega
    have hc : parent.children.get? i = some c := by
      have := List.getElem?_drop parent.children i 0
      rw [hdrop] at this
      simpa [List.get?_eq_getElem?] using this.symm
    have hsub : subtree T (q ++ [i]) = some c := subtree_child T q parent c i hq hc
    have hsz : sizeListTag [c] + fuel = Tag.size c + fuel := by
      rw [sizeListTag, sizeListTag]; omega
    rw [hsz, runFrom_subtree T c (q ++ [i]) hsub fuel]
    rw [ascend_append T q i parent hq]
    have hnlt : ¬ i + 1 < parent.children.length := by omega
    rw [if_neg hnlt]
    rw [preorderPosList, preorderPosList]
    simp [List.map_map, Function.comp_def]
  | c :: c2 :: cs2 =>
    intro _
    have hc : parent.children.get? i = some c := by
      have := List.getElem?_drop parent.children i 0
      rw [hdrop] at this
      simpa [List.get?_eq_getElem?] using this.symm
    have hlt : i + 1 < parent.children.length := by
      have h1 := congrArg List.length hdrop
      rw [List.length_drop] at h1
      simp at h1
      omega
    have hsub : subtree T (q ++ [i]) = some c := subtree_child T q parent c i hq hc
    have hdrop2 : parent.children.drop (i + 1) = c2 :: cs2 := by
      have : parent.children.drop (i + 1) = (parent.children.drop i).drop 1 := by
        rw [List.drop_drop]
      rw [this, hdrop]
      rfl
    have hsz : sizeListTag (c :: c2 :: cs2) + fuel =
        Tag.size c + (sizeListTag (c2 :: cs2) + fuel) := by
      rw [sizeListTag]; omega
    rw [hsz, runFrom_subtree T c (q ++ [i]) hsub (sizeListTag (c2 :: cs2) + fuel)]
    rw [ascend_append T q i parent hq, if_pos hlt, match_cont_some]
    rw [runFrom_children T (c2 :: cs2) q parent (i + 1) hq hdrop2 fuel (by simp)]
    simp [preorderPosList, List.map_map, Function.comp_def, List.append_assoc]
  termination_by sizeOf cs

end

/-- Claim C4: a freshly constructed iterator over a Tag Tree yields
exactly the pre-order position sequence — every node exactly once, each
node before its children, children in list order — and the first view
(the tree's root) carries the path `/` followed by the root's name. -/
theorem camt_iterator_preorder (t : Tag) :
    iterRun t = preorderPos t ∧
    (iterViews t).head? = some ⟨"/" ++ t.name, t.text.getD "", t.attrs⟩ := by
  have h1 : iterRun t = preorderPos t := by
    rw [iterRun]
    have h := runFrom_subtree t t [] rfl 0
    rw [Nat.add_zero] at h
    rw [h]
    have hasc : ascend t [] = none := rfl
    rw [hasc]
    simp
  refine ⟨h1, ?_⟩
  rw [iterViews, h1]
  cases t with
  | node n tx a cs =>
    rw [preorderPos]
    simp [viewAt, subtree, pathString, joinSlash, namesAlong, Tag.name,
      Tag.text, Tag.attrs]

theorem dropWhile_idem (p : Char → Bool) (l : List Char) :
    List.dropWhile p (List.dropWhile p l) = List.dropWhile p l := by
  induction l with
  | nil => rfl
  | cons c rest ih =>
    rw [List.dropWhile_cons]
    by_cases h : p c = true
    · simp [h, ih]
    · simp [List.dropWhile_cons, h]

theorem head_dropWhile_false (p : Char → Bool) (l : List Char) (c : Char)
    (h : (List.dropWhile p l).head? = some c) : p c = false := by
  have hm := List.head?_dropWhile_not p l
  rw [h] at hm
  exact hm

/-- Every character list whose first character (if any) is
non-whitespace. -/
def headNonWS (l : List Char) : Prop :=
  ∀ c, l.head? = some c → c.isWhitespace = false

theorem trimFix_of_headOK (cs : List Char)
    (h1 : headNonWS cs) (h2 : headNonWS cs.reverse) :
    rustTrimList cs = cs := by
  have e1 : List.dropWhile Char.isWhitespace cs = cs := by
    cases cs with
    | nil => rfl
    | cons c rest => rw [List.dropWhile_cons, if_neg (by simp [h1 c rfl])]
  rw [rustTrimList, e1]
  have e2 : List.dropWhile Char.isWhitespace cs.reverse = cs.reverse := by
    cases hrev : cs.reverse with
    | nil => rfl
    | cons c rest =>
      rw [List.dropWhile_cons, if_neg (by simp [h2 c (by rw [hrev]; rfl)])]
  rw [e2, List.reverse_reverse]

theorem trim_headOK (cs : List Char) : headNonWS (rustTrimList cs) := by
  intro c hc
  rw [rustTrimList] at hc
  have hsuf : List.dropWhile Char.isWhitespace
      (List.dropWhile Char.isWhitespace cs).reverse <:+
        (List.dropWhile Char.isWhitespace cs).reverse :=
    List.dropWhile_suffix _
  obtain ⟨pre, hpre⟩ := hsuf
  have hApre : List.dropWhile Char.isWhitespace cs =
      (List.dropWhile Char.isWhitespace
        (List.dropWhile Char.isWhitespace cs).reverse).reverse ++ pre.reverse := by
    have h2 := congrArg List.reverse hpre
    simpa using h2.symm
  cases hBr : (List.dropWhile Char.isWhitespace
      (List.dropWhile Char.isWhitespace cs).reverse).reverse with
  | nil => rw [hBr] at hc; simp at hc
  | cons c2 tail =>
    rw [hBr] at hc
    injection hc with hc
    subst hc
    have hAhead : (List.dropWhile Char.isWhitespace cs).head? = some c2 := by
      rw [hApre, hBr]
      rfl
    exact head_dropWhile_false _ cs c2 hAhead

theorem trim_revOK (cs : List Char) : headNonWS (rustTrimList cs).reverse := by
  intro c hc
  rw [rustTrimList, List.reverse_reverse] at hc
  exact head_dropWhile_false _ _ c hc

theorem trim_idem (cs : List Char) :
    rustTrimList (rustTrimList cs) = rustTrimList cs :=
  trimFix_of_headOK _ (trim_headOK cs) (trim_revOK cs)

theorem rustTrim_idem (s : String) : rustTrim (rustTrim s) = rustTrim s := by
  show String.mk (rustTrimList (rustTrimList s.data)) = String.mk (rustTrimList s.data)
  exact congrArg String.mk (trim_idem s.data)

theorem trimList_append (a b : List Char)
    (ha : rustTrimList a = a) (hb : rustTrimList b = b) :
    rustTrimList (a ++ b) = a ++ b := by
  have haOK : headNonWS a := ha ▸ trim_headOK a
  have hbOK : headNonWS b := hb ▸ trim_headOK b
  have haRev : headNonWS a.reverse := by
    have := trim_revOK a
    rwa [ha] at this
  have hbRev : headNonWS b.reverse := by
    have := trim_revOK b
    rwa [hb] at this
  apply trimFix_of_headOK
  · intro c hc
    cases a with
    | nil => exact hbOK c (by simpa using hc)
    | cons x rest =>
      injection hc with hc
      subst hc
      exact haOK _ rfl
  · intro c hc
    rw [List.reverse_append] at hc
    cases hbr : b.reverse with
    | nil =>
      rw [hbr] at hc
      exact haRev c (by simpa using hc)
    | cons x rest =>
      rw [hbr] at hc
      injection hc with hc
      subst hc
      exact hbRev _ (by rw [hbr]; rfl)

theorem rustTrim_append (a b : String)
    (ha : rustTrim a = a) (hb : rustTrim b = b) :
    rustTrim (a ++ b) = a ++ b := by
  have ha2 : rustTrimList a.data = a.data := congrArg String.data ha
  have hb2 : rustTrimList b.data = b.data := congrArg String.data hb
  show String.mk (rustTrimList (a ++ b).data) = a ++ b
  rw [String.data_append]
  rw [trimList_append a.data b.data ha2 hb2]
  show String.mk (a.data ++ b.data) = a ++ b
  cases a
  cases b
  rfl

/-- Invariant of the accumulated columns: their count matches the span
width, every column is trim-fixed, and the first and last columns are
non-empty. -/
def colsOK (s : ScanState) : Prop :=
  s.columns.length = s.span.2 - s.span.1 ∧
  s.span.1 < s.span.2 ∧
  (∀ c ∈ s.columns, rustTrim c = c) ∧
  (∃ c, s.columns.head? = some c ∧ c ≠ "") ∧
  (∃ c, s.columns.getLast? = some c ∧ c ≠ "")

/-- Invariant of the accumulated table: every row has exactly one cell
per column and all cells are trim-fixed. -/
def tableOK (s : ScanState) : Prop :=
  ∀ row ∈ s.table, row.length = s.columns.length ∧ ∀ c ∈ row, rustTrim c = c

/-- The first table row is the row that ended header accumulation, so it
is not header-like. -/
def headNotHL (s : ScanState) : Prop :=
  ∃ r, s.table.head? = some r ∧ isHeaderLike r = false

/-- The scan-state invariant of `CSVFormat::from_read`. -/
def ScanInv (s : ScanState) : Prop :=
  (∀ row ∈ s.other_before, (∀ c ∈ row, rustTrim c = c) ∧ anchorCell ∉ row) ∧
  (∀ row ∈ s.other_after, ∀ c ∈ row, rustTrim c = c) ∧
  (s.st = .before → s.columns = [] ∧ s.table = [] ∧ s.other_after = []) ∧
  (s.st = .header → colsOK s ∧ s.table = [] ∧ s.other_after = []) ∧
  (s.st = .data →
    colsOK s ∧ tableOK s ∧ s.table ≠ [] ∧ s.other_after = [] ∧ headNotHL s) ∧
  (s.st = .after →
    colsOK s ∧ tableOK s ∧ s.table ≠ [] ∧ headNotHL s ∧
      (∃ h rest, s.other_after = h :: rest ∧ ∀ c ∈ h, c = ""))

theorem mem_map_trim_fix (rec : List String) (c : String)
    (h : c ∈ rec.map rustTrim) : rustTrim c = c := by
  obtain ⟨x, _, hx⟩ := List.mem_map.mp h
  rw [← hx]
  exact rustTrim_idem x

/-- Cells of the span slice are cells of the record. -/
theorem mem_slice_mem (cells : List String) (a b : Nat) (c : String)
    (h : c ∈ (cells.drop a).take b) : c ∈ cells :=
  List.mem_of_mem_drop (List.mem_of_mem_take h)

theorem findIdx?_spec (p : String → Bool) (l : List String) (i : Nat)
    (h : List.findIdx? p l = some i) :
    i < l.length ∧ (∀ x, l[i]? = some x → p x = true) ∧
      (∀ j, j < i → ∀ x, l[j]? = some x → p x = false) := by
  rw [List.findIdx?_eq_some_iff_findIdx_eq] at h
  obtain ⟨hlen, hidx⟩ := h
  refine ⟨hlen, ?_, ?_⟩
  · intro x hx
    rw [List.getElem?_eq_getElem hlen] at hx
    cases hx
    subst hidx
    exact List.findIdx_getElem
  · intro j hj x hx
    subst hidx
    rw [List.getElem?_eq_getElem (by omega)] at hx
    cases hx
    exact List.not_of_lt_findIdx hj

/-- What the anchor row's non-empty-cell span detection guarantees about
the extracted header slice. -/
theorem spanSlice_facts (cells : List String) (f l0 : Nat)
    (hf : firstIdxNonEmpty cells = some f)
    (hl : lastIdxNonEmpty cells = some l0) :
    f ≤ l0 ∧ l0 < cells.length ∧
    ((cells.drop f).take (l0 + 1 - f)).length = l0 + 1 - f ∧
    (∃ c, ((cells.drop f).take (l0 + 1 - f)).head? = some c ∧ c ≠ "") ∧
    (∃ c, ((cells.drop f).take (l0 + 1 - f)).getLast? = some c ∧ c ≠ "") := by
  rw [firstIdxNonEmpty] at hf
  obtain ⟨hflen, hfsat, hfmin⟩ := findIdx?_spec _ _ _ hf
  rw [lastIdxNonEmpty] at hl
  obtain ⟨j, hj, hjl⟩ := Option.map_eq_some'.mp hl
  obtain ⟨hjlen, hjsat, _⟩ := findIdx?_spec _ _ _ hj
  have hjlen2 : j < cells.length := by simpa using hjlen
  have hrev : cells.reverse[j]? = cells[cells.length - 1 - j]? :=
    List.getElem?_reverse hjlen2
  have hl0lt : l0 < cells.length := by omega
  have hcl0 : ∀ x, cells[l0]? = some x → x ≠ "" := by
    intro x hx
    have := hjsat x (by rw [hrev, hjl]; exact hx)
    simpa using this
  have hfne : ∀ x, cells[f]? = some x → x ≠ "" := by
    intro x hx
    have h2 := hfsat x hx
    simp at h2
    exact h2
  have hfle : f ≤ l0 := by
    by_contra hgt
    have := hfmin l0 (by omega) cells[l0] (List.getElem?_eq_getElem hl0lt)
    have h2 := hcl0 cells[l0] (List.getElem?_eq_getElem hl0lt)
    simp at this
    exact h2 this
  refine ⟨hfle, hl0lt, ?_, ?_, ?_⟩
  · rw [List.length_take, List.length_drop]
    omega
  · refine ⟨cells[f], ?_, hfne cells[f] (List.getElem?_eq_getElem hflen)⟩
    rw [List.head?_eq_getElem?, List.getElem?_take, if_pos (by omega),
      List.getElem?_drop]
    set_option linter.unnecessarySimpa false in
    simpa using List.getElem?_eq_getElem hflen
  · refine ⟨cells[l0], ?_, hcl0 cells[l0] (List.getElem?_eq_getElem hl0lt)⟩
    rw [List.getLast?_eq_getElem?, List.length_take, List.length_drop]
    have harith : (l0 + 1 - f) ⊓ (cells.length - f) - 1 = l0 - f := by omega
    rw [harith, List.getElem?_take, if_pos (by omega), List.getElem?_drop]
    have harith2 : f + (l0 - f) = l0 := by omega
    rw [harith2]
    exact List.getElem?_eq_getElem hl0lt

theorem append_ne_empty_left (a b : String) (h : a ≠ "") : a ++ b ≠ "" := by
  intro hab
  apply h
  have h2 : (a ++ b).data = [] := congrArg String.data hab
  rw [String.data_append] at h2
  have ha : a.data = [] := by
    cases hd : a.data with
    | nil => rfl
    | cons x xs => rw [hd] at h2; simp at h2
  cases a
  simp at ha
  rw [ha]

theorem joinColumns_length (cols cells : List String)
    (h : cells.length = cols.length) :
    (joinColumns cols cells).length = cols.length := by
  simp [joinColumns, h]

theorem joinColumns_trim (cols cells : List String)
    (hc : ∀ c ∈ cols, rustTrim c = c) (he : ∀ c ∈ cells, rustTrim c = c) :
    ∀ c ∈ joinColumns cols cells, rustTrim c = c := by
  intro c hmem
  rw [joinColumns] at hmem
  obtain ⟨⟨a, b⟩, hab, hfc⟩ := List.mem_map.mp hmem
  have ha := hc a (List.of_mem_zip hab).1
  have hb := he b (List.of_mem_zip hab).2
  by_cases hbe : b = ""
  · rw [if_pos hbe] at hfc
    rw [← hfc]
    exact ha
  · rw [if_neg hbe] at hfc
    rw [← hfc]
    exact rustTrim_append a b ha hb

theorem joinColumns_head (cols cells : List String)
    (hlen : cells.length = cols.length)
    (hh : ∃ c, cols.head? = some c ∧ c ≠ "") :
    ∃ c, (joinColumns cols cells).head? = some c ∧ c ≠ "" := by
  obtain ⟨c0, hc0, hne⟩ := hh
  cases cols with
  | nil => simp at hc0
  | cons a as =>
    have hane : a ≠ "" := by
      injection hc0 with h
      rw [h]
      exact hne
    cases cells with
    | nil => simp at hlen
    | cons b bs =>
      refine ⟨if b = "" then a else a ++ b, rfl, ?_⟩
      by_cases hbe : b = ""
      · rw [if_pos hbe]; exact hane
      · rw [if_neg hbe]; exact append_ne_empty_left a b hane

theorem joinColumns_getLast (cols cells : List String)
    (hlen : cells.length = cols.length)
    (hh : ∃ c, cols.getLast? = some c ∧ c ≠ "") :
    ∃ c, (joinColumns cols cells).getLast? = some c ∧ c ≠ "" := by
  obtain ⟨c0, hc0, hne⟩ := hh
  have hnil : cols ≠ [] := by
    intro h
    rw [h] at hc0
    simp at hc0
  have hpos : 0 < cols.length := List.length_pos.mpr hnil
  rw [List.getLast?_eq_getElem?] at hc0
  have hcb : cells[cols.length - 1]? = some cells[cols.length - 1] :=
    List.getElem?_eq_getElem (by omega)
  have hzip : (cols.zip cells)[cols.length - 1]? =
      some (c0, cells[cols.length - 1]) :=
    List.getElem?_zip_eq_some.mpr ⟨hc0, hcb⟩
  refine ⟨if cells[cols.length - 1] = "" then c0 else c0 ++ cells[cols.length - 1],
    ?_, ?_⟩
  · have hm : (joinColumns cols cells).length = cols.length :=
      joinColumns_length cols cells hlen
    rw [List.getLast?_eq_getElem?, hm, joinColumns, List.getElem?_map, hzip]
    rfl
  · by_cases hbe : cells[cols.length - 1] = ""
    · rw [if_pos hbe]; exact hne
    · rw [if_neg hbe]; exact append_ne_empty_left _ _ hne

theorem csvStep_inv (s : ScanState) (rec : List String) (s2 : ScanState)
    (hinv : ScanInv s) (hstep : csvStep s rec = some s2) : ScanInv s2 := by
  obtain ⟨hob, hoa, hbef, hhdr, hdat, haft⟩ := hinv
  cases hst : s.st with
  | before =>
    obtain ⟨hc0, ht0, hoa0⟩ := hbef hst
    simp only [csvStep, hst] at hstep
    split at hstep
    · split at hstep
      · rename_i hanch acc x n d hf hl
        injection hstep with h
        subst h
        obtain ⟨hfle, hlt, hslen, hhead, hlast⟩ :=
          spanSlice_facts (rec.map rustTrim) n d hf hl
        refine ⟨hob, hoa, ?_, ?_, ?_, ?_⟩
        · intro h; simp at h
        · intro _
          refine ⟨⟨?_, ?_, ?_, hhead, hlast⟩, ht0, hoa0⟩
          · simpa using hslen
          · simp; omega
          · intro c hc
            exact mem_map_trim_fix rec c (mem_slice_mem _ _ _ c hc)
        · intro h; simp at h
        · intro h; simp at h
      · injection hstep with h
        subst h
        exact ⟨hob, hoa, hbef, hhdr, hdat, haft⟩
    · rename_i hanch
      injection hstep with h
      subst h
      refine ⟨?_, hoa, ?_, ?_, ?_, ?_⟩
      · intro row hrow
        rcases List.mem_append.mp hrow with hold | hnew
        · exact hob row hold
        · have hre : row = rec.map rustTrim := by simpa using hnew
          subst hre
          refine ⟨fun c hc => mem_map_trim_fix rec c hc, fun hmem => ?_⟩
          exact hanch (List.elem_eq_true_of_mem hmem)
      · intro _
        exact ⟨hc0, ht0, hoa0⟩
      · intro h; simp at h
      · intro h; simp at h
      · intro h; simp at h
  | header =>
    obtain ⟨hcOK, ht0, hoa0⟩ := hhdr hst
    obtain ⟨hclen, hspan, htrim, hhead, hlast⟩ := hcOK
    simp only [csvStep, hst] at hstep
    split at hstep
    · simp at hstep
    · rename_i hlenOK
      have hslen : (((rec.map rustTrim).drop s.span.1).take
          (s.span.2 - s.span.1)).length = s.span.2 - s.span.1 := by
        rw [List.length_take, List.length_drop]
        omega
      have hslice_trim : ∀ c ∈ ((rec.map rustTrim).drop s.span.1).take
          (s.span.2 - s.span.1), rustTrim c = c :=
        fun c hc => mem_map_trim_fix rec c (mem_slice_mem _ _ _ c hc)
      have hslen2 : (((rec.map rustTrim).drop s.span.1).take
          (s.span.2 - s.span.1)).length = s.columns.length := by
        rw [hslen, hclen]
      split at hstep
      · rename_i hHL
        injection hstep with h
        subst h
        refine ⟨hob, hoa, ?_, ?_, ?_, ?_⟩
        · intro h; simp at h
        · intro _
          refine ⟨⟨?_, hspan, ?_, ?_, ?_⟩, ht0, hoa0⟩
          · simpa using (joinColumns_length _ _ hslen2).trans hclen
          · exact joinColumns_trim _ _ htrim hslice_trim
          · exact joinColumns_head _ _ hslen2 hhead
          · exact joinColumns_getLast _ _ hslen2 hlast
        · intro h; simp at h
        · intro h; simp at h
      · rename_i hHL
        injection hstep with h
        subst h
        refine ⟨hob, hoa, ?_, ?_, ?_, ?_⟩
        · intro h; simp at h
        · intro h; simp at h
        · intro _
          refine ⟨⟨hclen, hspan, htrim, hhead, hlast⟩, ?_, ?_, hoa0, ?_⟩
          · intro row hrow
            rw [ht0] at hrow
            have hre : row = ((rec.map rustTrim).drop s.span.1).take
                (s.span.2 - s.span.1) := by simpa using hrow
            subst hre
            exact ⟨hslen2, hslice_trim⟩
          · simp
          · refine ⟨((rec.map rustTrim).drop s.span.1).take (s.span.2 - s.span.1),
              ?_, ?_⟩
            · rw [ht0]; rfl
            · simpa using hHL
        · intro h; simp at h
  | data =>
    obtain ⟨hcOK, htOK, htne, hoaE, hHL⟩ := hdat hst
    simp only [csvStep, hst] at hstep
    split at hstep
    · rename_i hempty
      injection hstep with h
      subst h
      refine ⟨hob, ?_, ?_, ?_, ?_, ?_⟩
      · intro row hrow
        rcases List.mem_append.mp hrow with hold | hnew
        · exact hoa row hold
        · have hre : row = rec.map rustTrim := by simpa using hnew
          subst hre
          exact fun c hc => mem_map_trim_fix rec c hc
      · intro h; simp at h
      · intro h; simp at h
      · intro h; simp at h
      · intro _
        refine ⟨hcOK, htOK, htne, hHL, rec.map rustTrim, s.other_after, ?_, ?_⟩
        · rw [hoaE]
          rfl
        · intro c hc
          have := List.all_eq_true.mp hempty c hc
          simpa using this
    · split at hstep
      · simp at hstep
      · rename_i hempty hlenOK
        injection hstep with h
        subst h
        have hslen2 : (((rec.map rustTrim).drop s.span.1).take
            (s.span.2 - s.span.1)).length = s.columns.length := by
          rw [List.length_take, List.length_drop]
          obtain ⟨hclen, hspan, _, _, _⟩ := hcOK
          omega
        refine ⟨hob, hoa, ?_, ?_, ?_, ?_⟩
        · intro h; simp at h
        · intro h; simp at h
        · intro _
          refine ⟨hcOK, ?_, ?_, hoaE, ?_⟩
          · intro row hrow
            rcases List.mem_append.mp hrow with hold | hnew
            · exact htOK row hold
            · have hre : row = ((rec.map rustTrim).drop s.span.1).take
                  (s.span.2 - s.span.1) := by simpa using hnew
              subst hre
              exact ⟨hslen2,
                fun c hc => mem_map_trim_fix rec c (mem_slice_mem _ _ _ c hc)⟩
          · simp
          · obtain ⟨r, hr, hrHL⟩ := hHL
            refine ⟨r, ?_, hrHL⟩
            have hex : ∃ a l, s.table = a :: l := by
              cases htb : s.table with
              | nil => exact absurd htb htne
              | cons a l => exact ⟨a, l, rfl⟩
            obtain ⟨a, l, htb⟩ := hex
            rw [htb] at hr
            simp at hr
            subst hr
            simp [htb]
        · intro h; simp at h
  | after =>
    obtain ⟨hcOK, htOK, htne, hHL, hh, hrest, hoaEq, hhEmpty⟩ := haft hst
    simp only [csvStep, hst] at hstep
    injection hstep with h
    subst h
    refine ⟨hob, ?_, ?_, ?_, ?_, ?_⟩
    · intro row hrow
      rcases List.mem_append.mp hrow with hold | hnew
      · exact hoa row hold
      · have hre : row = rec.map rustTrim := by simpa using hnew
        subst hre
        exact fun c hc => mem_map_trim_fix rec c hc
    · intro h; simp at h
    · intro h; simp at h
    · intro h; simp at h
    · intro _
      refine ⟨hcOK, htOK, htne, hHL, hh, hrest ++ [rec.map rustTrim], ?_, hhEmpty⟩
      rw [hoaEq]
      rfl

theorem map_trim_self (row : List String) (h : ∀ c ∈ row, rustTrim c = c) :
    row.map rustTrim = row := by
  induction row with
  | nil => rfl
  | cons c rest ih =>
    rw [List.map_cons, h c (by simp), ih (fun x hx => h x (by simp [hx]))]

theorem csvScan_inv (rows : List (List String)) :
    ∀ (s s2 : ScanState), ScanInv s → csvScan rows s = some s2 → ScanInv s2 := by
  induction rows with
  | nil =>
    intro s s2 hinv hscan
    rw [csvScan] at hscan
    injection hscan with h
    subst h
    exact hinv
  | cons r rest ih =>
    intro s s2 hinv hscan
    rw [csvScan] at hscan
    cases hstep : csvStep s r with
    | none => rw [hstep] at hscan; simp at hscan
    | some s3 =>
      rw [hstep] at hscan
      exact ih s3 s2 (csvStep_inv s r s3 hinv hstep) hscan

theorem scanInv_init : ScanInv csvInitState := by
  refine ⟨?_, ?_, ?_, ?_, ?_, ?_⟩ <;> intro h <;> simp [csvInitState] at h ⊢

/-- The structural facts `CSVFormat::from_read` guarantees about every
successfully parsed result. -/
def FmtInv (F : CSVFormat) : Prop :=
  (∀ row ∈ F.other_before, (∀ c ∈ row, rustTrim c = c) ∧ anchorCell ∉ row) ∧
  (∀ row ∈ F.other_after, ∀ c ∈ row, rustTrim c = c) ∧
  (∀ c ∈ F.columns, rustTrim c = c) ∧
  (∃ c, F.columns.head? = some c ∧ c ≠ "") ∧
  (∃ c, F.columns.getLast? = some c ∧ c ≠ "") ∧
  (∀ row ∈ F.table, row.length = F.columns.length ∧ ∀ c ∈ row, rustTrim c = c) ∧
  F.table ≠ [] ∧
  (∃ r, F.table.head? = some r ∧ isHeaderLike r = false) ∧
  (F.other_after = [] ∨ ∃ h rest, F.other_after = h :: rest ∧ ∀ c ∈ h, c = "")

theorem csvFromRead_inv (rows : List (List String)) (F : CSVFormat)
    (hread : csvFromRead rows = some (.ok F)) : FmtInv F := by
  rw [csvFromRead] at hread
  cases hscan : csvScan rows csvInitState with
  | none => rw [hscan] at hread; simp at hread
  | some s =>
    rw [hscan] at hread
    have hinv : ScanInv s := csvScan_inv rows csvInitState s scanInv_init hscan
    obtain ⟨hob, hoa, hbef, hhdr, hdat, haft⟩ := hinv
    have hread2 : (if s.columns.isEmpty = true ∨ s.table.isEmpty = true then
          some (Except.error (FormatErr.dataFormatError csvEmptyMsg))
        else some (Except.ok (⟨s.columns, s.table, s.other_before,
          s.other_after⟩ : CSVFormat))) = some (.ok F) := hread
    split at hread2
    · simp at hread2
    · rename_i hne
      injection hread2 with h
      injection h with h
      subst h
      have htne : s.table ≠ [] := by
        intro h
        exact hne (Or.inr (by simp [h]))
      cases hst : s.st with
      | before => exact absurd (hbef hst).2.1 htne
      | header => exact absurd (hhdr hst).2.1 htne
      | data =>
        obtain ⟨⟨hclen, hspan, htrim, hhead, hlast⟩, htOK, _, hoaE, hHL⟩ := hdat hst
        exact ⟨hob, hoa, htrim, hhead, hlast, htOK, htne, hHL, Or.inl hoaE⟩
      | after =>
        obtain ⟨⟨hclen, hspan, htrim, hhead, hlast⟩, htOK, _, hHL, hex⟩ := haft hst
        exact ⟨hob, hoa, htrim, hhead, hlast, htOK, htne, hHL, Or.inr hex⟩

theorem csvScan_append (xs ys : List (List String)) :
    ∀ s : ScanState, csvScan (xs ++ ys) s =
      match csvScan xs s with
      | none => none
      | some s2 => csvScan ys s2 := by
  induction xs with
  | nil => intro s; rw [List.nil_append, csvScan]
  | cons r rest ih =>
    intro s
    rw [List.cons_append, csvScan, csvScan]
    cases csvStep s r with
    | none => simp
    | some s2 => simp [ih s2]

/-- Scanning prologue rows (trim-fixed, anchor-free) in the Before state
just accumulates them. -/
theorem scan_before_rows (obs : List (List String))
    (hobs : ∀ row ∈ obs, (∀ c ∈ row, rustTrim c = c) ∧ anchorCell ∉ row) :
    ∀ s : ScanState, s.st = .before →
      csvScan obs s = some { s with other_before := s.other_before ++ obs } := by
  induction obs with
  | nil =>
    intro s hst
    rw [csvScan]
    simp
  | cons row rest ih =>
    intro s hst
    obtain ⟨htrim, hanch⟩ := hobs row (by simp)
    have hcells : row.map rustTrim = row := map_trim_self row htrim
    have hstep : csvStep s row =
        some { s with other_before := s.other_before ++ [row] } := by
      simp only [csvStep, hst, hcells]
      rw [if_neg]
      intro hmem
      exact hanch (List.mem_of_elem_eq_true hmem)
    rw [csvScan, hstep]
    show csvScan rest { s with other_before := s.other_before ++ [row] } = _
    rw [ih (fun r hr => hobs r (by simp [hr]))
      { s with other_before := s.other_before ++ [row] } hst]
    simp

/-- The serialized columns row re-anchors the header with the identity
span. -/
theorem step_columns_row (s : ScanState) (hst : s.st = .before)
    (cols : List String)
    (htrim : ∀ c ∈ cols, rustTrim c = c)
    (hanch : anchorCell ∈ cols)
    (hhead : ∃ c, cols.head? = some c ∧ c ≠ "")
    (hlast : ∃ c, cols.getLast? = some c ∧ c ≠ "") :
    csvStep s cols =
      some { s with st := .header, columns := cols, span := (0, cols.length) } := by
  have hcells : cols.map rustTrim = cols := map_trim_self cols htrim
  obtain ⟨c0, hc0, hc0ne⟩ := hhead
  obtain ⟨cl, hcl, hclne⟩ := hlast
  have hnil : cols ≠ [] := by
    intro h
    rw [h] at hc0
    simp at hc0
  have hpos : 0 < cols.length := List.length_pos.mpr hnil
  have hfirst : firstIdxNonEmpty cols = some 0 := by
    cases hcc : cols with
    | nil => exact absurd hcc hnil
    | cons a as =>
      rw [hcc] at hc0
      injection hc0 with hc0
      subst hc0
      rw [firstIdxNonEmpty, List.findIdx?_cons, if_pos (by simpa using hc0ne)]
  have hlastIdx : lastIdxNonEmpty cols = some (cols.length - 1) := by
    rw [lastIdxNonEmpty]
    have hrev : cols.reverse.head? = some cl := by
      rw [List.head?_reverse]
      exact hcl
    cases hrc : cols.reverse with
    | nil => rw [hrc] at hrev; simp at hrev
    | cons a as =>
      rw [hrc] at hrev
      injection hrev with hrev
      subst hrev
      rw [List.findIdx?_cons, if_pos (by simpa using hclne)]
      rfl
  simp only [csvStep, hst, hcells]
  rw [if_pos (List.elem_eq_true_of_mem hanch), hfirst, hlastIdx]
  have harith : cols.length - 1 + 1 = cols.length := by omega
  simp only [harith, List.drop_zero, Nat.sub_zero, List.take_length]

/-- The first serialized table row moves the scan from Header to Data. -/
theorem step_first_data_row (s : ScanState) (hst : s.st = .header)
    (row : List String)
    (hlen : row.length = s.span.2) (hsp : s.span.1 = 0)
    (htrim : ∀ c ∈ row, rustTrim c = c)
    (hHL : isHeaderLike row = false) :
    csvStep s row = some { s with st := .data, table := s.table ++ [row] } := by
  have hcells : row.map rustTrim = row := map_trim_self row htrim
  have hslice : (row.drop s.span.1).take (s.span.2 - s.span.1) = row := by
    rw [hsp, List.drop_zero, Nat.sub_zero, ← hlen, List.take_length]
  simp only [csvStep, hst, hcells]
  rw [if_neg (by omega), hslice, hHL]
  simp

/-- Scanning further serialized table rows (right length, trim-fixed, not
all empty) keeps accumulating them in the Data state. -/
theorem scan_data_rows (rs : List (List String)) :
    ∀ s : ScanState, s.st = .data → s.span.1 = 0 →
      (∀ row ∈ rs, row.length = s.span.2 ∧ (∀ c ∈ row, rustTrim c = c) ∧
        ∃ c ∈ row, c ≠ "") →
      csvScan rs s = some { s with table := s.table ++ rs } := by
  induction rs with
  | nil =>
    intro s hst hsp _
    rw [csvScan]
    simp
  | cons row rest ih =>
    intro s hst hsp hrows
    obtain ⟨hlen, htrim, c, hcmem, hcne⟩ := hrows row (by simp)
    have hcells : row.map rustTrim = row := map_trim_self row htrim
    have hslice : (row.drop s.span.1).take (s.span.2 - s.span.1) = row := by
      rw [hsp, List.drop_zero, Nat.sub_zero, ← hlen, List.take_length]
    have hne : (row.all fun c => decide (c = "")) ≠ true := by
      intro hall
      exact hcne (by simpa using List.all_eq_true.mp hall c hcmem)
    have hstep : csvStep s row = some { s with table := s.table ++ [row] } := by
      simp only [csvStep, hst, hcells]
      rw [if_neg hne, if_neg (by omega), hslice]
    rw [csvScan, hstep]
    show csvScan rest { s with table := s.table ++ [row] } = _
    rw [ih { s with table := s.table ++ [row] } hst hsp
      (fun r hr => hrows r (by simp [hr]))]
    simp

/-- An all-empty row moves the scan from Data to After, stored as the
first epilogue row. -/
theorem step_empty_row (s : ScanState) (hst : s.st = .data)
    (row : List String) (hempty : ∀ c ∈ row, c = "") :
    csvStep s row =
      some { s with st := .after, other_after := s.other_after ++ [row] } := by
  have htrim : ∀ c ∈ row, rustTrim c = c := by
    intro c hc
    rw [hempty c hc]
    rfl
  have hcells : row.map rustTrim = row := map_trim_self row htrim
  have hall : (row.all fun c => decide (c = "")) = true :=
    List.all_eq_true.mpr (fun c hc => by simpa using hempty c hc)
  simp only [csvStep, hst, hcells]
  rw [if_pos hall]

/-- Scanning epilogue rows in the After state just accumulates them. -/
theorem scan_after_rows (rs : List (List String))
    (hr : ∀ row ∈ rs, ∀ c ∈ row, rustTrim c = c) :
    ∀ s : ScanState, s.st = .after →
      csvScan rs s = some { s with other_after := s.other_after ++ rs } := by
  induction rs with
  | nil =>
    intro s hst
    rw [csvScan]
    simp
  | cons row rest ih =>
    intro s hst
    have hcells : row.map rustTrim = row := map_trim_self row (hr row (by simp))
    have hstep : csvStep s row =
        some { s with other_after := s.other_after ++ [row] } := by
      simp only [csvStep, hst, hcells]
    rw [csvScan, hstep]
    show csvScan rest { s with other_after := s.other_after ++ [row] } = _
    rw [ih (fun r hrr => hr r (by simp [hrr]))
      { s with other_after := s.other_after ++ [row] } hst]
    simp

theorem csvScan_append_ok (xs ys : List (List String)) (s s2 : ScanState)
    (h : csvScan xs s = some s2) : csvScan (xs ++ ys) s = csvScan ys s2 := by
  rw [csvScan_append, h]

theorem csvScan_singleton (r : List String) (s s2 : ScanState)
    (h : csvStep s r = some s2) : csvScan [r] s = some s2 := by
  rw [csvScan, h]
  rfl

/-- Claim C8 (amended): the CSV round trip preserves the parsed structure
provided (1) the accumulated header still contains a cell exactly equal
to the anchor `Дата проводки` (header continuation rows can append text
to it) and (2) every extracted table row has at least one non-empty cell
within the detected span (a row empty inside the span but non-empty
outside it is stored all-empty and terminates the reparsed table early).
Under these two conditions — which the counterexample shows cannot be
dropped — reparsing the serialized output returns exactly the same
columns, table and surrounding rows. -/
theorem csv_roundtrip_amended (rows : List (List String)) (F : CSVFormat)
    (hparse : csvFromRead rows = some (.ok F))
    (hanchor : anchorCell ∈ F.columns)
    (hcells : ∀ row ∈ F.table, ∃ c ∈ row, c ≠ "") :
    csvFromRead (csvWriteTo F) = some (.ok F) := by
  obtain ⟨hob, hoa, hctrim, hhead, hlast, htOK, htne, hHL, hoaCase⟩ :=
    csvFromRead_inv rows F hparse
  obtain ⟨r0, hr0, hr0HL⟩ := hHL
  obtain ⟨tb, htb⟩ : ∃ tb, F.table = r0 :: tb := by
    cases htt : F.table with
    | nil => rw [htt] at hr0; simp at hr0
    | cons a l =>
      rw [htt] at hr0
      injection hr0 with h
      exact ⟨l, by rw [h]⟩
  have hcnil : F.columns ≠ [] := by
    obtain ⟨c0, hc0, _⟩ := hhead
    intro h
    rw [h] at hc0
    simp at hc0
  have h1 : csvScan F.other_before csvInitState =
      some ⟨.before, [], [], F.other_before, [], (0, 0)⟩ := by
    have h := scan_before_rows F.other_before hob csvInitState rfl
    simpa [csvInitState] using h
  have h2 : csvStep (⟨.before, [], [], F.other_before, [], (0, 0)⟩ : ScanState)
      F.columns =
      some ⟨.header, F.columns, [], F.other_before, [], (0, F.columns.length)⟩ :=
    step_columns_row _ rfl F.columns hctrim hanchor hhead hlast
  have hr0mem : r0 ∈ F.table := by rw [htb]; simp
  have hr0len : r0.length = F.columns.length := (htOK r0 hr0mem).1
  have h3 : csvStep
      (⟨.header, F.columns, [], F.other_before, [], (0, F.columns.length)⟩ : ScanState)
      r0 =
      some ⟨.data, F.columns, [r0], F.other_before, [], (0, F.columns.length)⟩ :=
    step_first_data_row _ rfl r0 hr0len rfl (htOK r0 hr0mem).2 hr0HL
  have h4 : csvScan tb
      (⟨.data, F.columns, [r0], F.other_before, [], (0, F.columns.length)⟩ : ScanState) =
      some ⟨.data, F.columns, r0 :: tb, F.other_before, [], (0, F.columns.length)⟩ := by
    have h := scan_data_rows tb
      (⟨.data, F.columns, [r0], F.other_before, [], (0, F.columns.length)⟩ : ScanState)
      rfl rfl (fun row hrow => by
        have hmem : row ∈ F.table := by rw [htb]; simp [hrow]
        exact ⟨(htOK row hmem).1, (htOK row hmem).2, hcells row hmem⟩)
    simpa using h
  have htblscan : csvScan F.table
      (⟨.header, F.columns, [], F.other_before, [], (0, F.columns.length)⟩ : ScanState) =
      some ⟨.data, F.columns, r0 :: tb, F.other_before, [], (0, F.columns.length)⟩ := by
    rw [htb, csvScan, h3]
    exact h4
  have hfinal : ∃ stf, csvScan (csvWriteTo F) csvInitState =
      some ⟨stf, F.columns, r0 :: tb, F.other_before, F.other_after,
        (0, F.columns.length)⟩ := by
    rw [csvWriteTo]
    rw [csvScan_append_ok _ _ _ _
      (by
        rw [csvScan_append_ok _ _ _ _
          (by
            rw [csvScan_append_ok _ _ _ _ h1]
            exact csvScan_singleton _ _ _ h2)]
        exact htblscan)]
    rcases hoaCase with hoaE | ⟨hh, hrest, hoaEq, hhEmpty⟩
    · rw [hoaE]
      exact ⟨.data, by rw [csvScan]⟩
    · rw [hoaEq, csvScan, step_empty_row _ rfl hh hhEmpty]
      refine ⟨.after, ?_⟩
      have h := scan_after_rows hrest
        (fun r hr => hoa r (by rw [hoaEq]; simp [hr]))
        (⟨.after, F.columns, r0 :: tb, F.other_before, [hh],
          (0, F.columns.length)⟩ : ScanState) rfl
      show csvScan hrest (⟨.after, F.columns, r0 :: tb, F.other_before, [hh],
        (0, F.columns.length)⟩ : ScanState) = _
      rw [h]
      simp
  obtain ⟨stf, hfull⟩ := hfinal
  have hgoal : (match csvScan (csvWriteTo F) csvInitState with
      | none => none
      | some s =>
        if s.columns.isEmpty = true ∨ s.table.isEmpty = true then
          some (Except.error (FormatErr.dataFormatError csvEmptyMsg))
        else some (Except.ok (⟨s.columns, s.table, s.other_before,
          s.other_after⟩ : CSVFormat))) = some (.ok F) := by
    rw [hfull]
    show (if F.columns.isEmpty = true ∨ (r0 :: tb).isEmpty = true then
        some (Except.error (FormatErr.dataFormatError csvEmptyMsg))
      else some (Except.ok (⟨F.columns, r0 :: tb, F.other_before,
        F.other_after⟩ : CSVFormat))) = some (.ok F)
    rw [if_neg (by simp [hcnil])]
    rw [← htb]
  exact hgoal

/-- Closed instance of the amended C8: a two-row CSV whose parse
satisfies both side conditions round-trips exactly. -/
theorem csv_roundtrip_amended_witness :
    csvFromRead (csvWriteTo
        ⟨["Дата проводки", "A", "B"], [["1", "2", "3"]], [], []⟩) =
      some (.ok ⟨["Дата проводки", "A", "B"], [["1", "2", "3"]], [], []⟩) :=
  csv_roundtrip_amended [["Дата проводки", "A", "B"], ["1", "2", "3"]] _
    (by decide) (by decide) (by decide)
